import Mathlib

/-!
Verification development for the ClearSignals AI server (v1.1: `src/server.js`,
second document, together with the Pinecone memory module).

The development shallowly embeds the parts of the program that the verified
properties are about:

* a JSON value model (`Json`), a JSON serializer and a recursive-descent
  parser modelling `JSON.parse` (numbers are modelled as integers; JSON
  fractional/exponent number forms and lone-surrogate escapes are outside the
  model, and strings are sequences of Unicode scalar values);
* the `cleanJSON` repair cascade from `src/server.js` (fence stripping, outer
  brace slicing, trailing-comma removal, control-character replacement,
  balanced-brace extraction), with the JavaScript regexes modelled as the
  character-level functions they compute;
* the `/api/analyze` request handler, modelled as a pure function of the
  environment, the request body, and a `World` giving the outcome of each
  outbound network interaction (the three chat-completion calls and the
  Pinecone embed/upsert/query operations).  The handler also returns the list
  of outbound calls it dispatched, so that "no outbound call is made" style
  properties can be stated.  Wall-clock timing fields (`stage1_ms`, …),
  `console.log` side effects, and the natural-language prompt texts are not
  modelled (no verified property depends on them).
-/

set_option maxHeartbeats 1000000
set_option maxRecDepth 100000

namespace ClearSignals

/-! ## JSON values -/

/-- JSON value model.  Numbers are modelled as integers: every numeric field the
server's prompts request (`intent`, `win_pct`, `ryg` counts, indices) is an
integer, and the verified properties do not depend on fractional numbers. -/
inductive Json where
  | null : Json
  | bool (b : Bool) : Json
  | num (n : Int) : Json
  | str (s : String) : Json
  | arr (elems : List Json) : Json
  | obj (fields : List (String × Json)) : Json
deriving Repr

mutual

/-- Structural decidable equality for the nested `Json` type. -/
def Json.decEqV : (a b : Json) → Decidable (a = b)
  | .null, .null => isTrue rfl
  | .null, .bool _ => isFalse (fun h => Json.noConfusion h)
  | .null, .num _ => isFalse (fun h => Json.noConfusion h)
  | .null, .str _ => isFalse (fun h => Json.noConfusion h)
  | .null, .arr _ => isFalse (fun h => Json.noConfusion h)
  | .null, .obj _ => isFalse (fun h => Json.noConfusion h)
  | .bool _, .null => isFalse (fun h => Json.noConfusion h)
  | .bool a, .bool b =>
      if h : a = b then isTrue (by rw [h])
      else isFalse (by intro he; injection he with h2; exact h h2)
  | .bool _, .num _ => isFalse (fun h => Json.noConfusion h)
  | .bool _, .str _ => isFalse (fun h => Json.noConfusion h)
  | .bool _, .arr _ => isFalse (fun h => Json.noConfusion h)
  | .bool _, .obj _ => isFalse (fun h => Json.noConfusion h)
  | .num _, .null => isFalse (fun h => Json.noConfusion h)
  | .num _, .bool _ => isFalse (fun h => Json.noConfusion h)
  | .num a, .num b =>
      if h : a = b then isTrue (by rw [h])
      else isFalse (by intro he; injection he with h2; exact h h2)
  | .num _, .str _ => isFalse (fun h => Json.noConfusion h)
  | .num _, .arr _ => isFalse (fun h => Json.noConfusion h)
  | .num _, .obj _ => isFalse (fun h => Json.noConfusion h)
  | .str _, .null => isFalse (fun h => Json.noConfusion h)
  | .str _, .bool _ => isFalse (fun h => Json.noConfusion h)
  | .str _, .num _ => isFalse (fun h => Json.noConfusion h)
  | .str a, .str b =>
      if h : a = b then isTrue (by rw [h])
      else isFalse (by intro he; injection he with h2; exact h h2)
  | .str _, .arr _ => isFalse (fun h => Json.noConfusion h)
  | .str _, .obj _ => isFalse (fun h => Json.noConfusion h)
  | .arr _, .null => isFalse (fun h => Json.noConfusion h)
  | .arr _, .bool _ => isFalse (fun h => Json.noConfusion h)
  | .arr _, .num _ => isFalse (fun h => Json.noConfusion h)
  | .arr _, .str _ => isFalse (fun h => Json.noConfusion h)
  | .arr a, .arr b =>
      match Json.decEqL a b with
      | isTrue h => isTrue (by rw [h])
      | isFalse h => isFalse (by intro he; injection he with h2; exact h h2)
  | .arr _, .obj _ => isFalse (fun h => Json.noConfusion h)
  | .obj _, .null => isFalse (fun h => Json.noConfusion h)
  | .obj _, .bool _ => isFalse (fun h => Json.noConfusion h)
  | .obj _, .num _ => isFalse (fun h => Json.noConfusion h)
  | .obj _, .str _ => isFalse (fun h => Json.noConfusion h)
  | .obj _, .arr _ => isFalse (fun h => Json.noConfusion h)
  | .obj a, .obj b =>
      match Json.decEqF a b with
      | isTrue h => isTrue (by rw [h])
      | isFalse h => isFalse (by intro he; injection he with h2; exact h h2)

def Json.decEqL : (a b : List Json) → Decidable (a = b)
  | [], [] => isTrue rfl
  | [], _ :: _ => isFalse (fun h => List.noConfusion h)
  | _ :: _, [] => isFalse (fun h => List.noConfusion h)
  | a :: as, b :: bs =>
      match Json.decEqV a b, Json.decEqL as bs with
      | isTrue h1, isTrue h2 => isTrue (by rw [h1, h2])
      | isFalse h1, _ => isFalse (by intro he; injection he with x y; exact h1 x)
      | _, isFalse h2 => isFalse (by intro he; injection he with x y; exact h2 y)

def Json.decEqF : (a b : List (String × Json)) → Decidable (a = b)
  | [], [] => isTrue rfl
  | [], _ :: _ => isFalse (fun h => List.noConfusion h)
  | _ :: _, [] => isFalse (fun h => List.noConfusion h)
  | (ka, va) :: as, (kb, vb) :: bs =>
      match Json.decEqV va vb, Json.decEqF as bs with
      | isTrue h2, isTrue h3 =>
          if h1 : ka = kb then isTrue (by rw [h1, h2, h3])
          else isFalse (by
            intro he
            injection he with x y
            injection x with xk xv
            exact h1 xk)
      | isFalse h2, _ => isFalse (by
          intro he
          injection he with x y
          injection x with xk xv
          exact h2 xv)
      | _, isFalse h3 => isFalse (by intro he; injection he with x y; exact h3 y)

end

instance : DecidableEq Json := Json.decEqV

instance {α β : Type} [DecidableEq α] [DecidableEq β] : DecidableEq (Except α β) :=
  fun a b =>
    match a, b with
    | .error x, .error y =>
        if h : x = y then isTrue (by rw [h]) else isFalse (by simp [h])
    | .error _, .ok _ => isFalse (by simp)
    | .ok _, .error _ => isFalse (by simp)
    | .ok x, .ok y =>
        if h : x = y then isTrue (by rw [h]) else isFalse (by simp [h])

/-! ## Character classes -/

/-- Whitespace accepted by `JSON.parse` between tokens: space, tab, line feed,
carriage return. -/
def isJsonWs (c : Char) : Bool :=
  c = ' ' || c = '\t' || c = '\n' || c = '\r'

/-- The character class of the JavaScript regex `\s` (as used by the
`,\s*([}\]])` and fence-stripping regexes of `cleanJSON`): ASCII whitespace
plus the Unicode space separators and BOM. -/
def isJsWs (c : Char) : Bool :=
  c = ' ' || c = '\t' || c = '\n' || c = '\r' ||
  c.toNat = 0x0b || c.toNat = 0x0c || c.toNat = 0xa0 || c.toNat = 0x1680 ||
  (0x2000 ≤ c.toNat && c.toNat ≤ 0x200a) ||
  c.toNat = 0x2028 || c.toNat = 0x2029 || c.toNat = 0x202f ||
  c.toNat = 0x205f || c.toNat = 0x3000 || c.toNat = 0xfeff

/-- `\s` characters that the JSON serializer leaves unescaped inside string
literals (code point at least 0x20); sub-0x20 whitespace is serialized as a
two-character escape and therefore never appears raw in serializer output. -/
def rawWs (c : Char) : Bool :=
  isJsWs c && !(c.toNat < 0x20)

def isClosingBracket (c : Char) : Bool :=
  c = ']' || c = '\x7d'

/-- Lower-case hex digit for a value below 16. -/
def hexDig (n : Nat) : Char :=
  Char.ofNat (if n < 10 then 48 + n else n + 87)

def hexVal (c : Char) : Option Nat :=
  let n := c.toNat
  if 48 ≤ n && n ≤ 57 then some (n - 48)
  else if 97 ≤ n && n ≤ 102 then some (n - 87)
  else if 65 ≤ n && n ≤ 70 then some (n - 55)
  else none

/-! ## JSON serializer -/

/-- Escape of one character inside a JSON string literal: quote and backslash
get a backslash escape, `\n`, `\r`, `\t` get their short escapes, any other
control character gets a `\u00XX` escape, everything else is emitted raw. -/
def escChar (c : Char) : List Char :=
  if c = '"' then ['\\', '"']
  else if c = '\\' then ['\\', '\\']
  else if c = '\n' then ['\\', 'n']
  else if c = '\r' then ['\\', 'r']
  else if c = '\t' then ['\\', 't']
  else if c.toNat < 0x20 then ['\\', 'u', '0', '0', hexDig (c.toNat / 16), hexDig (c.toNat % 16)]
  else [c]

def escStr (cs : List Char) : List Char := cs.flatMap escChar

/-- Decimal digits of a positive natural number (most significant first). -/
def natDigits : Nat → List Char
  | 0 => []
  | n + 1 => natDigits ((n + 1) / 10) ++ [Char.ofNat ('0'.toNat + (n + 1) % 10)]
decreasing_by exact Nat.div_lt_self (Nat.succ_pos n) (by norm_num)

/-- Decimal notation of an integer (JSON number grammar, integer case). -/
def numChars (i : Int) : List Char :=
  if i < 0 then '-' :: natDigits i.natAbs
  else if i = 0 then ['0'] else natDigits i.natAbs

mutual

/-- Compact (whitespace-free) JSON serialization of a value. -/
def serV : Json → List Char
  | .bool b => (if b then "true" else "false").data
  | .null => "null".data
  | .num n => numChars n
  | .str s => '"' :: (escStr s.data ++ ['"'])
  | .arr l => '[' :: (serItems l ++ [']'])
  | .obj l => '\x7b' :: (serFields l ++ ['\x7d'])

def serItems : List Json → List Char
  | x :: t => serV x ++ serTail t
  | [] => []

def serTail : List Json → List Char
  | x :: t => ',' :: (serV x ++ serTail t)
  | [] => []

def serFields : List (String × Json) → List Char
  | (k, v) :: t => ('"' :: (escStr k.data ++ '"' :: ':' :: serV v)) ++ serFTail t
  | [] => []

def serFTail : List (String × Json) → List Char
  | (k, v) :: t => ',' :: (('"' :: (escStr k.data ++ '"' :: ':' :: serV v)) ++ serFTail t)
  | [] => []

end

mutual

/-- Serialization identical to `serV` except that a trailing comma is inserted
before the closing bracket of every nonempty array and object ("trailing
commas inserted before closing brackets"). -/
def serTCv : Json → List Char
  | .bool b => (if b then "true" else "false").data
  | .null => "null".data
  | .num n => numChars n
  | .str s => '"' :: (escStr s.data ++ ['"'])
  | .arr [] => "[]".data
  | .arr (x :: t) => '[' :: ((serTCv x ++ serTCtail t) ++ [',', ']'])
  | .obj [] => "\x7b\x7d".data
  | .obj ((k, v) :: t) =>
      '\x7b' :: ((('"' :: (escStr k.data ++ '"' :: ':' :: serTCv v)) ++ serTCftail t) ++ [',', '\x7d'])

def serTCtail : List Json → List Char
  | x :: t => ',' :: (serTCv x ++ serTCtail t)
  | [] => []

def serTCftail : List (String × Json) → List Char
  | (k, v) :: t => ',' :: (('"' :: (escStr k.data ++ '"' :: ':' :: serTCv v)) ++ serTCftail t)
  | [] => []

end

mutual

/-- Fuel measure dominating the parser recursion depth on serializer output. -/
def jfuel : Json → Nat
  | .arr l => 1 + lfuel l
  | .obj l => 1 + ffuel l
  | _ => 1

def lfuel : List Json → Nat
  | x :: t => 1 + jfuel x + lfuel t
  | [] => 1

def ffuel : List (String × Json) → Nat
  | (_, v) :: t => 1 + jfuel v + ffuel t
  | [] => 1

end

/-! ## The trailing-comma regex and control-character replacement -/

/-- Lookahead of the `,\s*([}\]])` match attempt: skip characters satisfying
`ws`, then succeed iff the next character is a closing bracket. -/
def spanBr (ws : Char → Bool) (t : List Char) : Option (Char × List Char) :=
  match t.dropWhile ws with
  | br :: t2 => if isClosingBracket br then some (br, t2) else none
  | [] => none

/-- One pass of `s.replace(/,\s*([}\]])/g, '$1')` over a character list, with
the whitespace class a parameter: at each comma, if whitespace then a closing
bracket follows, the comma and whitespace are dropped, the bracket is kept, and
scanning resumes after the bracket (JavaScript `replace` does not rescan). -/
def collapseGen (ws : Char → Bool) : List Char → List Char
  | [] => []
  | c :: t =>
      if c = ',' then
        match h : spanBr ws t with
        | some (br, t2) => br :: collapseGen ws t2
        | none => ',' :: collapseGen ws t
      else
        c :: collapseGen ws t
termination_by cs => cs.length
decreasing_by
  · simp only [List.length_cons]
    have h1 : (t.dropWhile ws).length ≤ t.length := (List.dropWhile_sublist ws).length_le
    have h2 : br :: t2 = t.dropWhile ws := by
      unfold spanBr at h
      split at h
      · split at h
        · simp_all
        · exact absurd h (by simp)
      · exact absurd h (by simp)
    have h3 : (br :: t2).length = (t.dropWhile ws).length := by rw [h2]
    simp only [List.length_cons] at h3
    omega
  · simp
  · simp

/-- `fix.replace(/,\s*([}\]])/g, '$1')` from `cleanJSON` ("Try 2"). -/
def commaFixL (cs : List Char) : List Char := collapseGen isJsWs cs

def commaFix (s : String) : String := String.mk (commaFixL s.data)

/-- The collapse that `commaFixL` performs inside a serialized string literal,
expressed on the raw (unescaped) characters: only whitespace that the
serializer leaves raw can be skipped by the lookahead there. -/
def collapseRaw (cs : List Char) : List Char := collapseGen rawWs cs

mutual

/-- The value produced by parsing `commaFixL` of a trailing-comma
serialization: every string (values and keys) has its in-literal
`,⟨raw ws⟩*⟨closing bracket⟩` patterns collapsed. -/
def collapseJ : Json → Json
  | .null => .null
  | .bool b => .bool b
  | .num n => .num n
  | .str s => .str (String.mk (collapseRaw s.data))
  | .arr l => .arr (collapseL l)
  | .obj l => .obj (collapseF l)

def collapseL : List Json → List Json
  | [] => []
  | x :: t => collapseJ x :: collapseL t

def collapseF : List (String × Json) → List (String × Json)
  | [] => []
  | (k, v) :: t => (String.mk (collapseRaw k.data), collapseJ v) :: collapseF t

end

/-- Replacement of one character by the "Try 3" regex
`fix.replace(/[\x00-\x1f]/g, c => ...)` of `cleanJSON`: `\n`, `\r`, `\t`
become two-character escapes, any other sub-0x20 character is deleted, and all
other characters are left alone. -/
def escCtrl (c : Char) : List Char :=
  if c.toNat < 0x20 then
    if c = '\n' then ['\\', 'n']
    else if c = '\r' then ['\\', 'r']
    else if c = '\t' then ['\\', 't']
    else []
  else [c]

/-- The control-character repair tier of `cleanJSON` ("Try 3", also reused in
"Try 4"). -/
def ctrlFixL (cs : List Char) : List Char := cs.flatMap escCtrl

def ctrlFix (s : String) : String := String.mk (ctrlFixL s.data)

/-! ## A model of `JSON.parse`

Recursive-descent parser for the JSON grammar (with numbers restricted to
integers, see the module comment).  The `fuel` parameter only bounds the
recursion depth; `jsonParseL` supplies fuel that is ample for any input of the
given length. -/

def isDigitC (c : Char) : Bool := '0' ≤ c && c ≤ '9'

def digitsToNat (ds : List Char) : Nat :=
  ds.foldl (fun a c => 10 * a + (c.toNat - '0'.toNat)) 0

/-- Parse a JSON integer literal (unsigned part): a nonempty digit run with no
leading zero; fractional and exponent forms are outside the model and make the
parse fail. -/
def parseNat (cs : List Char) : Option (Nat × List Char) :=
  let ds := cs.takeWhile isDigitC
  let rest := cs.dropWhile isDigitC
  if ds.isEmpty then none
  else if 1 < ds.length && ds.head? = some '0' then none
  else
    match rest.head? with
    | some c => if c = '.' || c = 'e' || c = 'E' then none else some (digitsToNat ds, rest)
    | none => some (digitsToNat ds, rest)

def parseNum (cs : List Char) : Option (Int × List Char) :=
  match cs with
  | '-' :: t =>
      match parseNat t with
      | some (n, r) => some (-(n : Int), r)
      | none => none
  | _ =>
      match parseNat cs with
      | some (n, r) => some ((n : Int), r)
      | none => none

/-- Parse the body of a JSON string literal (after the opening quote), up to
and including the closing quote.  Raw control characters are rejected, exactly
as `JSON.parse` rejects them. -/
def parseStrBody : List Char → Option (List Char × List Char)
  | [] => none
  | c :: t =>
      if c = '"' then some ([], t)
      else if c = '\\' then
        match t with
        | [] => none
        | e :: t2 =>
            if e = '"' then (parseStrBody t2).map (fun p => ('"' :: p.1, p.2))
            else if e = '\\' then (parseStrBody t2).map (fun p => ('\\' :: p.1, p.2))
            else if e = '/' then (parseStrBody t2).map (fun p => ('/' :: p.1, p.2))
            else if e = 'n' then (parseStrBody t2).map (fun p => ('\n' :: p.1, p.2))
            else if e = 'r' then (parseStrBody t2).map (fun p => ('\r' :: p.1, p.2))
            else if e = 't' then (parseStrBody t2).map (fun p => ('\t' :: p.1, p.2))
            else if e = 'b' then (parseStrBody t2).map (fun p => ('\x08' :: p.1, p.2))
            else if e = 'f' then (parseStrBody t2).map (fun p => ('\x0c' :: p.1, p.2))
            else if e = 'u' then
              match t2 with
              | h1 :: h2 :: h3 :: h4 :: t3 =>
                  match hexVal h1, hexVal h2, hexVal h3, hexVal h4 with
                  | some a, some b, some c3, some d =>
                      (parseStrBody t3).map
                        (fun p => (Char.ofNat (((a * 16 + b) * 16 + c3) * 16 + d) :: p.1, p.2))
                  | _, _, _, _ => none
              | _ => none
            else none
      else if c.toNat < 0x20 then none
      else (parseStrBody t).map (fun p => (c :: p.1, p.2))

def skipWs (cs : List Char) : List Char := cs.dropWhile isJsonWs

/-- Selector for the combined parsing function `parseF`. -/
inductive PMode where
  | val : PMode
  | items : PMode
  | fields : PMode
deriving Repr, DecidableEq

/-- Results of `parseF`, tagged by mode. -/
inductive PRes where
  | v (j : Json) : PRes
  | items (l : List Json) : PRes
  | fields (l : List (String × Json)) : PRes
deriving Repr

/-- The recursive-descent parser, as one function structurally recursive on
the fuel: mode `val` parses one JSON value, `items` parses one or more
comma-separated array elements, `fields` one or more comma-separated object
members.  `items`/`fields` leave the rest at the first non-whitespace,
non-comma character after the sequence. -/
def parseF : Nat → PMode → List Char → Option (PRes × List Char)
  | 0, _, _ => none
  | _ + 1, .val, [] => none
  | f + 1, .val, c :: t =>
      if c = 'n' then
        match t with
        | 'u' :: 'l' :: 'l' :: t2 => some (.v .null, t2)
        | _ => none
      else if c = 't' then
        match t with
        | 'r' :: 'u' :: 'e' :: t2 => some (.v (.bool true), t2)
        | _ => none
      else if c = 'f' then
        match t with
        | 'a' :: 'l' :: 's' :: 'e' :: t2 => some (.v (.bool false), t2)
        | _ => none
      else if c = '"' then
        match parseStrBody t with
        | some (s, r) => some (.v (.str (String.mk s)), r)
        | none => none
      else if c = '[' then
        if (skipWs t).head? = some ']' then some (.v (.arr []), (skipWs t).tail)
        else
          match parseF f .items (skipWs t) with
          | some (.items l, r) =>
              if r.head? = some ']' then some (.v (.arr l), r.tail) else none
          | _ => none
      else if c = '\x7b' then
        if (skipWs t).head? = some '\x7d' then some (.v (.obj []), (skipWs t).tail)
        else
          match parseF f .fields (skipWs t) with
          | some (.fields l, r) =>
              if r.head? = some '\x7d' then some (.v (.obj l), r.tail) else none
          | _ => none
      else if c = '-' || isDigitC c then
        match parseNum (c :: t) with
        | some (n, r) => some (.v (.num n), r)
        | none => none
      else none
  | f + 1, .items, cs =>
      match parseF f .val cs with
      | some (.v v, r) =>
          if (skipWs r).head? = some ',' then
            match parseF f .items (skipWs (skipWs r).tail) with
            | some (.items l, r3) => some (.items (v :: l), r3)
            | _ => none
          else some (.items [v], skipWs r)
      | _ => none
  | f + 1, .fields, cs =>
      match cs with
      | '"' :: t =>
          match parseStrBody t with
          | some (k, r) =>
              if (skipWs r).head? = some ':' then
                match parseF f .val (skipWs (skipWs r).tail) with
                | some (.v v, r3) =>
                    if (skipWs r3).head? = some ',' then
                      match parseF f .fields (skipWs (skipWs r3).tail) with
                      | some (.fields l, r5) => some (.fields ((String.mk k, v) :: l), r5)
                      | _ => none
                    else some (.fields [(String.mk k, v)], skipWs r3)
                | _ => none
              else none
          | none => none
      | _ => none

/-- Parse one JSON value. -/
def parseVal (f : Nat) (cs : List Char) : Option (Json × List Char) :=
  match parseF f .val cs with
  | some (.v j, r) => some (j, r)
  | _ => none

/-- `JSON.parse` model on a character list: a single JSON element surrounded by
optional whitespace. -/
def jsonParseL (cs : List Char) : Option Json :=
  match parseVal (2 * cs.length + 2) (skipWs cs) with
  | some (v, r) => if skipWs r = [] then some v else none
  | none => none

def jsonParse (s : String) : Option Json := jsonParseL s.data

/-! ## `cleanJSON` -/

def toLowerC (c : Char) : Char :=
  if 'A' ≤ c && c ≤ 'Z' then Char.ofNat (c.toNat + 32) else c

def startsWithCI (cs pat : List Char) : Bool :=
  (cs.take pat.length).map toLowerC == pat

/-- The fence-stripping replacements of `cleanJSON`:
`.replace(/^``` ++ "json" ++ \s*／i, '').replace(/^```\s*／i, '').replace(/\s*```$／i, '')`
(each regex anchored, so each replace removes at most one prefix/suffix). -/
def stripFenceL (cs : List Char) : List Char :=
  let cs1 :=
    if startsWithCI cs ['\x60', '\x60', '\x60', 'j', 's', 'o', 'n'] then
      (cs.drop 7).dropWhile isJsWs
    else cs
  let cs2 :=
    if cs1.take 3 == ['\x60', '\x60', '\x60'] then (cs1.drop 3).dropWhile isJsWs
    else cs1
  let rev := cs2.reverse
  if rev.take 3 == ['\x60', '\x60', '\x60'] then ((rev.drop 3).dropWhile isJsWs).reverse
  else cs2

def stripFence (s : String) : String := String.mk (stripFenceL s.data)

/-- `s.indexOf(c)` (as `none` instead of `-1`). -/
def firstIdx (cs : List Char) (c : Char) : Option Nat := cs.findIdx? (· = c)

/-- `s.lastIndexOf(c)` (as `none` instead of `-1`). -/
def lastIdx (cs : List Char) (c : Char) : Option Nat :=
  match cs.reverse.findIdx? (· = c) with
  | some i => some (cs.length - 1 - i)
  | none => none

/-- `s.slice(f, e)` for nonnegative indices (empty when `e ≤ f`). -/
def sliceL (cs : List Char) (f e : Nat) : List Char := (cs.drop f).take (e - f)

/-- "Try 4": scan the original text for the first balanced `\x7b...\x7d` span,
tracking brace depth.  `bsFind` models the phase before the span starts (depth
book-keeping with no recording); `bsTake` collects the span once a `\x7b` is
seen at depth 0, ending at the brace that returns the depth to 0. -/
def bsTake : List Char → Int → Option (List Char)
  | [], _ => none
  | c :: t, depth =>
      if c = '\x7b' then (bsTake t (depth + 1)).map (fun l => c :: l)
      else if c = '\x7d' then
        if depth = 1 then some ['\x7d']
        else (bsTake t (depth - 1)).map (fun l => c :: l)
      else (bsTake t depth).map (fun l => c :: l)

def bsFind : List Char → Int → Option (List Char)
  | [], _ => none
  | c :: t, depth =>
      if c = '\x7b' then
        if depth = 0 then (bsTake t 1).map (fun l => '\x7b' :: l)
        else bsFind t (depth + 1)
      else if c = '\x7d' then bsFind t (depth - 1)
      else bsFind t depth

def balancedSpan (cs : List Char) : Option (List Char) := bsFind cs 0

/-- The repair tiers of `cleanJSON` applied to the sliced span `s` ("Try 1"
through "Try 4"; `raw` is the original text, rescanned by "Try 4"): direct
parse; trailing-comma removal; control-character replacement; balanced-brace
extraction from the original text with the comma and control repairs
re-applied; otherwise fail with a bounded excerpt of the span. -/
def cleanJSONtiers (raw : String) (s : List Char) : Except String Json :=
  match jsonParseL s with
  | some v => .ok v
  | none =>
      match jsonParseL (commaFixL s) with
      | some v => .ok v
      | none =>
          match jsonParseL (ctrlFixL (commaFixL s)) with
          | some v => .ok v
          | none =>
              match balancedSpan raw.data with
              | some ex =>
                  match jsonParseL (ctrlFixL (commaFixL ex)) with
                  | some v => .ok v
                  | none => .error ("JSON parse failed. First 300: " ++ String.mk (s.take 300))
              | none => .error ("JSON parse failed. First 300: " ++ String.mk (s.take 300))

/-- The `cleanJSON` repair cascade of `src/server.js` (v1.1): strip markdown
fences, slice from the first `\x7b` to the last `\x7d` (failing up front when
either is absent), then run the repair tiers on the span. -/
def cleanJSON (raw : String) : Except String Json :=
  match firstIdx (stripFenceL raw.data) '\x7b', lastIdx (stripFenceL raw.data) '\x7d' with
  | some f, some l => cleanJSONtiers raw (sliceL (stripFenceL raw.data) f (l + 1))
  | _, _ => .error "No JSON object found in response"

/-- A markdown code fence around a payload. -/
def wrapFence (s : String) : String := "```json\n" ++ s ++ "\n```"

/-- Admissible continuations after a serialized value: end of input, a
separator comma, or a closing bracket. -/
def valRest (rest : List Char) : Prop :=
  match rest.head? with
  | none => True
  | some c => c = ',' ∨ c = ']' ∨ c = '\x7d'

/-- Admissible continuations after a serialized element/member sequence. -/
def seqRest (rest : List Char) : Prop :=
  match rest.head? with
  | none => True
  | some c => c = ']' ∨ c = '\x7d'

/-- Values with no elements or members: their trailing-comma serialization
equals the plain one. -/
def simpleVal : Json → Prop
  | .null => True
  | .bool _ => True
  | .num _ => True
  | .str _ => True
  | .arr [] => True
  | .obj [] => True
  | _ => False

/-- Nonempty arrays and objects: exactly the values whose trailing-comma
serialization carries a comma before its own closing bracket. -/
def nonemptyContainer : Json → Prop
  | .arr (_ :: _) => True
  | .obj (_ :: _) => True
  | _ => False

/-! ## JavaScript value helpers

The parsed stage outputs are dynamic JavaScript values; these helpers model
the property accesses and truthiness coercions the handler performs on them.
Modelling notes: property access on a non-object yields `undefined` (`none`)
here; the handler never reaches the few places where the real runtime would
instead throw a `TypeError` on a truthy non-array (`.map`), and where it can
(`(s1.emails || []).map`) the model makes that throw explicit. -/

/-- JavaScript truthiness of a JSON value. -/
def jTruthy : Json → Bool
  | .null => false
  | .bool b => b
  | .num n => n ≠ 0
  | .str s => s ≠ ""
  | .arr _ => true
  | .obj _ => true

/-- Property read `o[k]`: `none` models `undefined`.  Duplicate keys resolve to
the last occurrence, as in `JSON.parse`. -/
def jGet (j : Json) (k : String) : Option Json :=
  match j with
  | .obj l =>
      match l.reverse.find? (fun p => p.1 = k) with
      | some p => some p.2
      | none => none
  | _ => none

/-- `x || d` on a possibly-undefined value. -/
def jOrD (o : Option Json) (d : Json) : Json :=
  match o with
  | some v => if jTruthy v then v else d
  | none => d

/-- Truthiness of a possibly-undefined value (`undefined` is falsy). -/
def truthyOpt (o : Option Json) : Bool :=
  match o with
  | some v => jTruthy v
  | none => false

/-- `(x || []).length` where `x` is a possibly-undefined property: falsy values
are replaced by `[]` (length 0); arrays and strings have a `length`; `.length`
of any other truthy value is `undefined` (`none`).  `undefined` propagates
through the later `===` comparison and is dropped from the JSON response. -/
def jLenOpt (o : Option Json) : Option Nat :=
  match o with
  | none => some 0
  | some v =>
      if jTruthy v then
        match v with
        | .arr l => some l.length
        | .str s => some s.length
        | _ => none
      else some 0

/-- Elements of a JSON array (used after the handler has established that the
value is an array). -/
def jArrD : Json → List Json
  | .arr l => l
  | _ => []

/-- `s.trim()` with the JavaScript whitespace class. -/
def jsTrim (s : String) : String :=
  String.mk (((s.data.dropWhile isJsWs).reverse.dropWhile isJsWs).reverse)

/-- Build a JavaScript object literal: properties whose value is `undefined`
(`none`) are absent from the serialized response. -/
def objFields (l : List (String × Option Json)) : List (String × Json) :=
  l.filterMap (fun p => p.2.map (fun v => (p.1, v)))

/-! ## The `/api/analyze` handler model -/

/-- Server environment: which credentials are configured. -/
structure Env where
  openrouterKey : Bool
  pineconeKey : Bool
deriving Repr, DecidableEq

/-- Request body `{text, model}`; absent fields are `none`. -/
structure Req where
  text : Option String
  model : Option String
deriving Repr, DecidableEq

/-- Outcome of one outbound chat-completion call, as seen by `callLLM`:
a non-success HTTP status with an error body, a success with empty content, or
a success with raw completion text. -/
inductive LLMOutcome where
  | httpError (status : Nat) (body : String)
  | emptyContent
  | content (raw : String)
deriving Repr, DecidableEq

/-- Outcomes of the Pinecone-side operations used by `storeDeal` and
`findSimilarDeals` (`pinecone.js`): the embedding call and upsert performed by
`storeDeal`, and the embedding call and query performed by
`findSimilarDeals`.  The vector payloads and match metadata are not needed by
any verified property and are elided. -/
structure MemOracle where
  storeEmbed : Except String Unit
  storeUpsert : Except String Unit
  queryEmbed : Except String Unit
  queryRes : Except String Unit
deriving Repr

/-- The nondeterministic outside world for one request: outcomes of the three
possible chat-completion calls, the memory-collaborator operations, and the
clock value used for the generated thread id. -/
structure World where
  stage1 : LLMOutcome
  stage2 : LLMOutcome
  fallback : LLMOutcome
  mem : MemOracle
  now : Nat
deriving Repr

/-- Tags for outbound calls dispatched by the handler, in order.  The three
LLM tags record which prompt was used; `stage1` and `fallback` record the user
content (the claims refer to it), the stage-2 user content (assembled from the
stage-1 output) is not recorded. -/
inductive CallTag where
  | stage1 (userContent : String)
  | stage2
  | fallback (userContent : String)
  | memStore (threadId : String)
  | memQuery
deriving Repr, DecidableEq

/-- `callLLM` from `src/server.js`: non-success status and empty content are
raised as errors with the source's message texts; otherwise the completion
text goes through `cleanJSON`. -/
def callLLM (outcome : LLMOutcome) : Except String Json :=
  match outcome with
  | .httpError status body =>
      .error ("OpenRouter " ++ toString status ++ ": " ++ String.mk (body.data.take 300))
  | .emptyContent => .error "Empty response from model"
  | .content raw => cleanJSON raw

/-- Result of `pinecone.storeDeal`: the function catches every internal error
and reports it as `{success:false, error}`. -/
structure StoreRes where
  success : Bool
  error : Option String
deriving Repr, DecidableEq

/-- `pinecone.storeDeal` (from the Pinecone memory module): `getPinecone`
throws when the key is absent, then the deal summary is embedded and upserted;
any error is caught and returned as `success := false`. -/
def storeDeal (keyPresent : Bool) (mo : MemOracle) : StoreRes :=
  if !keyPresent then { success := false, error := some "PINECONE_API_KEY not set in environment" }
  else
    match mo.storeEmbed with
    | .error e => { success := false, error := some e }
    | .ok _ =>
        match mo.storeUpsert with
        | .error e => { success := false, error := some e }
        | .ok _ => { success := true, error := none }

/-- Result of `pinecone.findSimilarDeals`; the per-match lists are elided (no
verified property depends on them). -/
structure SimRes where
  success : Bool
  error : Option String
deriving Repr, DecidableEq

/-- `pinecone.findSimilarDeals`: embeds the query text and queries the index;
any error is caught and returned as `success := false`. -/
def findSimilarDeals (keyPresent : Bool) (mo : MemOracle) : SimRes :=
  if !keyPresent then { success := false, error := some "PINECONE_API_KEY not set in environment" }
  else
    match mo.queryEmbed with
    | .error e => { success := false, error := some e }
    | .ok _ =>
        match mo.queryRes with
        | .error e => { success := false, error := some e }
        | .ok _ => { success := true, error := none }

/-- The `memory` field of the analyze response.  `thread_id := none` models
the property being absent (initial `{stored:false, similar:null}` object),
`similar := none` models `null`. -/
structure MemoryRes where
  stored : Bool
  thread_id : Option String
  similar : Option SimRes
deriving Repr, DecidableEq

/-- Success body of `/api/analyze` (timing fields elided; `preprocess_model`
is absent on the fallback path; `email_count`/`analysis_count` are `none` when
the JavaScript value would be `undefined`, in which case `res.json` omits
them). -/
structure OkBody where
  result : Json
  model : String
  preprocess_model : Option String
  pipeline : String
  email_count : Option Nat
  analysis_count : Option Nat
  complete : Bool
  memory : MemoryRes
deriving Repr, DecidableEq

inductive Resp where
  | err (status : Nat) (error : String)
  | ok (body : OkBody)
deriving Repr, DecidableEq

def Resp.statusCode : Resp → Nat
  | .err s _ => s
  | .ok _ => 200

/-- The model-name table. -/
def MODELS : List (String × String) :=
  [("haiku", "anthropic/claude-3.5-haiku"),
   ("sonnet", "anthropic/claude-sonnet-4"),
   ("flash-lite", "google/gemini-2.5-flash-lite"),
   ("flash", "google/gemini-2.5-flash"),
   ("pro", "google/gemini-2.5-pro")]

/-- `MODELS[model] || MODELS['sonnet']`. -/
def lookupModel (m : Option String) : String :=
  match m with
  | some k =>
      match MODELS.lookup k with
      | some v => v
      | none => "anthropic/claude-sonnet-4"
  | none => "anthropic/claude-sonnet-4"

/-- `s.substring(0, n)`: the first `n` characters. -/
def jsSubstring (s : String) (n : Nat) : String := String.mk (s.data.take n)

/-- `(em.body || '')`: the message body as a string, or the empty string when
the property is absent or falsy. -/
def emailBodyStr (em : Json) : String :=
  match jGet em "body" with
  | some (.str s) => s
  | _ => ""

/-- One entry of `result.parsed_emails` in the two-stage merge:
`{index, from, date, snippet: (em.body || '').substring(0, 80), direction}`. -/
def mkParsedEmail (em : Json) : Json :=
  .obj (objFields
    [("index", jGet em "index"),
     ("from", jGet em "from"),
     ("date", jGet em "date"),
     ("snippet", some (.str (jsSubstring (emailBodyStr em) 80))),
     ("direction", jGet em "direction")])

/-- The canonical merged result of the two-stage path (`result = {...}` in the
handler). -/
def mergeResult (s1 s2 : Json) : Json :=
  .obj
    [("contact_name", jOrD (jGet s1 "contact_name") (.str "")),
     ("company_name", jOrD (jGet s1 "company_name") (.str "")),
     ("rep_name", jOrD (jGet s1 "rep_name") (.str "")),
     ("parsed_emails", .arr ((jArrD (jOrD (jGet s1 "emails") (.arr []))).map mkParsedEmail)),
     ("per_email", jOrD (jGet s2 "per_email") (.arr [])),
     ("final", jOrD (jGet s2 "final") (.obj []))]

/-- Memory dispatch shared by both success paths: when the gate is open, the
handler issues `storeDeal` and `findSimilarDeals` (concurrently, via
`Promise.all`; both catch internally, so neither rejects) and builds
`{stored, thread_id, similar}`; otherwise the initial
`{stored:false, similar:null}` is kept and no call is made. -/
def memDispatch (env : Env) (w : World) (gate : Bool) : MemoryRes × List CallTag :=
  if gate then
    let tid := "thread_" ++ toString w.now
    ({ stored := (storeDeal env.pineconeKey w.mem).success,
       thread_id := some tid,
       similar := some (findSimilarDeals env.pineconeKey w.mem) },
     [CallTag.memStore tid, CallTag.memQuery])
  else ({ stored := false, thread_id := none, similar := none }, [])

/-- The two-stage branch (`if (s1 && emailCount > 0)`), entered with the
stage-1 parse result and its email count.  The `cleanThread` construction maps
over `s1.emails` before the stage-2 call; when `s1.emails` is a truthy
non-array (possible since `emailCount` can come from a string's `length`),
`.map` throws a `TypeError` that the outer catch turns into a 500 before any
stage-2 call — modelled by the non-array branch. -/
def twoStage (env : Env) (w : World) (analysisModel : String) (s1 : Json)
    (emailCount : Option Nat) (calls1 : List CallTag) : Resp × List CallTag :=
  match jOrD (jGet s1 "emails") (.arr []) with
  | .arr _ =>
      let calls2 := calls1 ++ [CallTag.stage2]
      match callLLM w.stage2 with
      | .error e => (.err 500 e, calls2)
      | .ok s2 =>
          let perCount := jLenOpt (jGet s2 "per_email")
          let finalJ := jOrD (jGet s2 "final") (.obj [])
          let result := mergeResult s1 s2
          let gate := env.pineconeKey && jTruthy finalJ && truthyOpt (jGet finalJ "deal_stage")
          let md := memDispatch env w gate
          (.ok { result := result, model := analysisModel,
                 preprocess_model := some "google/gemini-2.5-flash-lite",
                 pipeline := "two-stage", email_count := emailCount,
                 analysis_count := perCount, complete := emailCount == perCount,
                 memory := md.1 }, calls2 ++ md.2)
  | _ => (.err 500 "(s1.emails || []).map is not a function", calls1)

/-- The fallback branch: single call on the raw unpreprocessed text. -/
def fallbackPath (env : Env) (w : World) (analysisModel : String) (text : String)
    (calls1 : List CallTag) : Resp × List CallTag :=
  let calls2 := calls1 ++ [CallTag.fallback ("Analyze this pasted email thread:\n\n" ++ text)]
  match callLLM w.fallback with
  | .error e => (.err 500 e, calls2)
  | .ok fb =>
      let fbEmailCount := jLenOpt (jGet fb "parsed_emails")
      let fbPerCount := jLenOpt (jGet fb "per_email")
      let gate := env.pineconeKey &&
        (match jGet fb "final" with
         | some fv => jTruthy fv && truthyOpt (jGet fv "deal_stage")
         | none => false)
      let md := memDispatch env w gate
      (.ok { result := fb, model := analysisModel, preprocess_model := none,
             pipeline := "fallback-single", email_count := fbEmailCount,
             analysis_count := fbPerCount, complete := fbEmailCount == fbPerCount,
             memory := md.1 }, calls2 ++ md.2)

/-- The `POST /api/analyze` handler of `src/server.js` (v1.1), as a pure
function of environment, request and world; also returns the ordered list of
outbound calls dispatched.  Control flow follows the source: credential check,
blank-text check, stage-1 attempt with its own `try/catch`, the
`s1 && emailCount > 0` guard choosing two-stage versus fallback, stage-2 and
merge with memory dispatch, and the outer `catch` turning any uncaught
exception into a 500. -/
def apiAnalyze (env : Env) (req : Req) (w : World) : Resp × List CallTag :=
  if !env.openrouterKey then (.err 500 "Server missing OPENROUTER_API_KEY", [])
  else
    match req.text with
    | none => (.err 400 "No email text provided", [])
    | some text =>
      if jsTrim text = "" then (.err 400 "No email text provided", [])
      else
        let analysisModel := lookupModel req.model
        let calls1 := [CallTag.stage1 text]
        match callLLM w.stage1 with
        | .ok s1 =>
            let emailCount := jLenOpt (jGet s1 "emails")
            if 0 < emailCount.getD 0 then
              twoStage env w analysisModel s1 emailCount calls1
            else fallbackPath env w analysisModel text calls1
        | .error _ => fallbackPath env w analysisModel text calls1

/-! ## Helper lemmas -/

/-! ## Concrete values used by the witness theorems -/

/-- A fixed world for concrete instantiations. -/
def worldNone : World :=
  { stage1 := .emptyContent, stage2 := .emptyContent, fallback := .emptyContent,
    mem := { storeEmbed := .ok (), storeUpsert := .ok (), queryEmbed := .ok (), queryRes := .ok () },
    now := 0 }

def memAllOk : MemOracle :=
  { storeEmbed := .ok (), storeUpsert := .ok (), queryEmbed := .ok (), queryRes := .ok () }

/-- A stage-1 completion parsing two messages. -/
def s1OK : String :=
  "\x7b\"contact_name\":\"Al\",\"emails\":[\x7b\"index\":1,\"from\":\"Al\",\"direction\":\"inbound\",\"body\":\"hello there\"\x7d,\x7b\"index\":2,\"from\":\"Bo\",\"direction\":\"outbound\",\"body\":\"hi\"\x7d]\x7d"

/-- A stage-2 completion with one per-message analysis (a count mismatch
against `s1OK`) and a truthy deal stage. -/
def s2Mismatch : String :=
  "\x7b\"per_email\":[\x7b\"email_num\":1,\"intent\":3\x7d],\"final\":\x7b\"deal_stage\":\"demo\"\x7d\x7d"

/-- A stage-2 completion whose final assessment has no `deal_stage`. -/
def s2NoStage : String :=
  "\x7b\"per_email\":[\x7b\"email_num\":1\x7d],\"final\":\x7b\"intent\":5\x7d\x7d"

/-- A fallback completion with matching counts and a truthy deal stage. -/
def fbOK : String :=
  "\x7b\"parsed_emails\":[\x7b\"index\":1,\"from\":\"Al\",\"snippet\":\"hey\",\"direction\":\"inbound\"\x7d],\"per_email\":[\x7b\"email_num\":1,\"intent\":2\x7d],\"final\":\x7b\"deal_stage\":\"prospecting\"\x7d\x7d"

/-- The parsed-message summaries shared by the concrete witness bodies. -/
def parsedOK : Json :=
  Json.arr
    [Json.obj [("index", Json.num 1), ("from", Json.str "Al"),
               ("snippet", Json.str "hello there"), ("direction", Json.str "inbound")],
     Json.obj [("index", Json.num 2), ("from", Json.str "Bo"),
               ("snippet", Json.str "hi"), ("direction", Json.str "outbound")]]

/-- The response body of the C9 witness run. -/
def bodyC9 : OkBody :=
  { result := Json.obj
      [("contact_name", Json.str "Al"), ("company_name", Json.str ""),
       ("rep_name", Json.str ""), ("parsed_emails", parsedOK),
       ("per_email", Json.arr [Json.obj [("email_num", Json.num 1)]]),
       ("final", Json.obj [("intent", Json.num 5)])],
    model := "anthropic/claude-sonnet-4",
    preprocess_model := some "google/gemini-2.5-flash-lite",
    pipeline := "two-stage", email_count := some 2, analysis_count := some 1,
    complete := false,
    memory := { stored := false, thread_id := none, similar := none } }

/-- The response body of the C1 witness run (stage 2 returned one analysis for
two parsed messages). -/
def bodyC1 : OkBody :=
  { result := Json.obj
      [("contact_name", Json.str "Al"), ("company_name", Json.str ""),
       ("rep_name", Json.str ""), ("parsed_emails", parsedOK),
       ("per_email", Json.arr [Json.obj [("email_num", Json.num 1),
                                         ("intent", Json.num 3)]]),
       ("final", Json.obj [("deal_stage", Json.str "demo")])],
    model := "anthropic/claude-sonnet-4",
    preprocess_model := some "google/gemini-2.5-flash-lite",
    pipeline := "two-stage", email_count := some 2, analysis_count := some 1,
    complete := false,
    memory := { stored := false, thread_id := none, similar := none } }

/-- The fallback completion of the witness worlds, parsed. -/
def fbJson : Json :=
  Json.obj
    [("parsed_emails", Json.arr [Json.obj
        [("index", Json.num 1), ("from", Json.str "Al"),
         ("snippet", Json.str "hey"), ("direction", Json.str "inbound")]]),
     ("per_email", Json.arr [Json.obj
        [("email_num", Json.num 1), ("intent", Json.num 2)]]),
     ("final", Json.obj [("deal_stage", Json.str "prospecting")])]

/-- A one-message stage-1 completion for the C3 witness. -/
def s1Small : String :=
  "\x7b\"emails\":[\x7b\"index\":1,\"from\":\"A\",\"direction\":\"inbound\",\"body\":\"x\"\x7d]\x7d"

def s1SmallJ : Json :=
  Json.obj [("emails", Json.arr [Json.obj
    [("index", Json.num 1), ("from", Json.str "A"),
     ("direction", Json.str "inbound"), ("body", Json.str "x")]])]


theorem mk_append (a b : List Char) : String.mk a ++ String.mk b = String.mk (a ++ b) := rfl

theorem firstIdx_eq_none {cs : List Char} {c : Char} (h : c ∉ cs) : firstIdx cs c = none := by
  induction cs with
  | nil => rfl
  | cons x t ih =>
      simp only [List.mem_cons, not_or] at h
      have hx : (decide (x = c)) = false := by
        simp only [decide_eq_false_iff_not]
        exact fun hh => h.1 hh.symm
      simp only [firstIdx, List.findIdx?_cons, hx, cond_false]
      have := ih h.2
      simp only [firstIdx] at this
      simp [this]

theorem lastIdx_eq_none {cs : List Char} {c : Char} (h : c ∉ cs) : lastIdx cs c = none := by
  have : c ∉ cs.reverse := by simpa using h
  have hf := firstIdx_eq_none this
  simp only [firstIdx] at hf
  simp [lastIdx, hf]

theorem string_ne_empty_of_length_pos {s : String} (h : 0 < s.length) : s ≠ "" := by
  intro hs
  rw [hs] at h
  simp at h

theorem cleanJSONtiers_error {raw : String} {s : List Char} {e : String}
    (h : cleanJSONtiers raw s = .error e) :
    e = "JSON parse failed. First 300: " ++ String.mk (s.take 300) := by
  unfold cleanJSONtiers at h
  cases h1 : jsonParseL s with
  | some v => simp [h1] at h
  | none =>
      simp only [h1] at h
      cases h2 : jsonParseL (commaFixL s) with
      | some v => simp [h2] at h
      | none =>
          simp only [h2] at h
          cases h3 : jsonParseL (ctrlFixL (commaFixL s)) with
          | some v => simp [h3] at h
          | none =>
              simp only [h3] at h
              cases h4 : balancedSpan raw.data with
              | some ex =>
                  simp only [h4] at h
                  cases h5 : jsonParseL (ctrlFixL (commaFixL ex)) with
                  | some v => simp [h5] at h
                  | none =>
                      simp only [h5, Except.error.injEq] at h
                      exact h.symm
              | none =>
                  simp only [h4, Except.error.injEq] at h
                  exact h.symm

theorem cleanJSON_error_ne {raw : String} {e : String} (h : cleanJSON raw = .error e) :
    e ≠ "" := by
  unfold cleanJSON at h
  cases h1 : firstIdx (stripFenceL raw.data) '\x7b' with
  | some f =>
      rw [h1] at h
      cases h2 : lastIdx (stripFenceL raw.data) '\x7d' with
      | some l =>
          rw [h2] at h
          have := cleanJSONtiers_error h
          subst this
          apply string_ne_empty_of_length_pos
          rw [String.length_append]
          have h30 : 0 < ("JSON parse failed. First 300: " : String).length := by decide
          omega
      | none =>
          rw [h2] at h
          simp only [Except.error.injEq] at h
          subst h
          decide
  | none =>
      rw [h1] at h
      simp only [Except.error.injEq] at h
      subst h
      decide

theorem callLLM_error_ne {oc : LLMOutcome} {e : String} (h : callLLM oc = .error e) :
    e ≠ "" := by
  cases oc with
  | httpError status body =>
      simp only [callLLM, Except.error.injEq] at h
      subst h
      apply string_ne_empty_of_length_pos
      have h11 : ("OpenRouter " : String).length = 11 := rfl
      simp only [String.length_append, h11]
      omega
  | emptyContent =>
      simp only [callLLM, Except.error.injEq] at h
      subst h
      decide
  | content raw => exact cleanJSON_error_ne h

/-- In the two-stage branch `(s1.emails || [])` is an array exactly of the
length that `emailCount` reported. -/
theorem jOrD_arr_len {o : Option Json} {l : List Json}
    (h : jOrD o (.arr []) = .arr l) : jLenOpt o = some l.length := by
  cases o with
  | none =>
      simp only [jOrD] at h
      cases h
      rfl
  | some v =>
      simp only [jOrD] at h
      by_cases ht : jTruthy v
      · rw [if_pos ht] at h
        subst h
        simp [jLenOpt, ht]
      · rw [if_neg ht] at h
        cases h
        simp [jLenOpt, ht]

theorem jLenOpt_jOrD (o : Option Json) :
    jLenOpt (some (jOrD o (.arr []))) = jLenOpt o := by
  cases o with
  | none => rfl
  | some v =>
      by_cases ht : jTruthy v
      · simp [jOrD, ht]
      · simp [jOrD, jLenOpt, ht]

theorem jGet_mergeResult_parsed (s1 s2 : Json) :
    jGet (mergeResult s1 s2) "parsed_emails" =
      some (.arr ((jArrD (jOrD (jGet s1 "emails") (.arr []))).map mkParsedEmail)) := by
  simp [mergeResult, jGet]

theorem jGet_mergeResult_per_email (s1 s2 : Json) :
    jGet (mergeResult s1 s2) "per_email" = some (jOrD (jGet s2 "per_email") (.arr [])) := by
  simp [mergeResult, jGet]

theorem jGet_mergeResult_final (s1 s2 : Json) :
    jGet (mergeResult s1 s2) "final" = some (jOrD (jGet s2 "final") (.obj [])) := by
  simp [mergeResult, jGet]


theorem length_mk (l : List Char) : (String.mk l).length = l.length := rfl

/-- Inversion of a successful two-stage branch. -/
theorem twoStage_ok_inv {env : Env} {w : World} {m : String} {s1 : Json}
    {ec : Option Nat} {c1 : List CallTag} {body : OkBody} {calls : List CallTag}
    (h : twoStage env w m s1 ec c1 = (.ok body, calls)) :
    ∃ s2 l,
      jOrD (jGet s1 "emails") (.arr []) = .arr l ∧
      callLLM w.stage2 = .ok s2 ∧
      body = { result := mergeResult s1 s2, model := m,
               preprocess_model := some "google/gemini-2.5-flash-lite",
               pipeline := "two-stage", email_count := ec,
               analysis_count := jLenOpt (jGet s2 "per_email"),
               complete := ec == jLenOpt (jGet s2 "per_email"),
               memory := (memDispatch env w
                 (env.pineconeKey && jTruthy (jOrD (jGet s2 "final") (.obj [])) &&
                   truthyOpt (jGet (jOrD (jGet s2 "final") (.obj [])) "deal_stage"))).1 } ∧
      calls = (c1 ++ [CallTag.stage2]) ++
        (memDispatch env w
          (env.pineconeKey && jTruthy (jOrD (jGet s2 "final") (.obj [])) &&
            truthyOpt (jGet (jOrD (jGet s2 "final") (.obj [])) "deal_stage"))).2 := by
  unfold twoStage at h
  cases harr : jOrD (jGet s1 "emails") (.arr []) with
  | arr l =>
      simp only [harr] at h
      cases h2 : callLLM w.stage2 with
      | error e => simp [h2] at h
      | ok s2 =>
          simp only [h2, Prod.mk.injEq, Resp.ok.injEq] at h
          exact ⟨s2, l, rfl, rfl, h.1.symm, h.2.symm⟩
  | null => simp [harr] at h
  | bool b => simp [harr] at h
  | num n => simp [harr] at h
  | str s => simp [harr] at h
  | obj o => simp [harr] at h

/-- Inversion of a successful fallback branch. -/
theorem fallbackPath_ok_inv {env : Env} {w : World} {m text : String}
    {c1 : List CallTag} {body : OkBody} {calls : List CallTag}
    (h : fallbackPath env w m text c1 = (.ok body, calls)) :
    ∃ fb,
      callLLM w.fallback = .ok fb ∧
      body = { result := fb, model := m, preprocess_model := none,
               pipeline := "fallback-single",
               email_count := jLenOpt (jGet fb "parsed_emails"),
               analysis_count := jLenOpt (jGet fb "per_email"),
               complete := jLenOpt (jGet fb "parsed_emails") == jLenOpt (jGet fb "per_email"),
               memory := (memDispatch env w
                 (env.pineconeKey &&
                   (match jGet fb "final" with
                    | some fv => jTruthy fv && truthyOpt (jGet fv "deal_stage")
                    | none => false))).1 } ∧
      calls = (c1 ++ [CallTag.fallback ("Analyze this pasted email thread:\n\n" ++ text)]) ++
        (memDispatch env w
          (env.pineconeKey &&
            (match jGet fb "final" with
             | some fv => jTruthy fv && truthyOpt (jGet fv "deal_stage")
             | none => false))).2 := by
  unfold fallbackPath at h
  cases hf : callLLM w.fallback with
  | error e => simp [hf] at h
  | ok fb =>
      simp only [hf, Prod.mk.injEq, Resp.ok.injEq] at h
      exact ⟨fb, rfl, h.1.symm, h.2.symm⟩

/-- Inversion of a successful `apiAnalyze` run: validation passed and the
result came from the two-stage or the fallback branch. -/
theorem apiAnalyze_ok_cases {env : Env} {req : Req} {w : World} {body : OkBody}
    {calls : List CallTag} (h : apiAnalyze env req w = (.ok body, calls)) :
    ∃ text, req.text = some text ∧ env.openrouterKey = true ∧ jsTrim text ≠ "" ∧
      ((∃ s1, callLLM w.stage1 = .ok s1 ∧ 0 < (jLenOpt (jGet s1 "emails")).getD 0 ∧
          twoStage env w (lookupModel req.model) s1 (jLenOpt (jGet s1 "emails"))
            [CallTag.stage1 text] = (.ok body, calls)) ∨
       (fallbackPath env w (lookupModel req.model) text [CallTag.stage1 text] =
          (.ok body, calls) ∧
        ((∃ e, callLLM w.stage1 = .error e) ∨
         (∃ s1, callLLM w.stage1 = .ok s1 ∧ (jLenOpt (jGet s1 "emails")).getD 0 = 0)))) := by
  unfold apiAnalyze at h
  cases hk : env.openrouterKey with
  | false => rw [hk] at h; simp at h
  | true =>
      rw [hk] at h
      simp only [Bool.not_true, Bool.false_eq_true, if_false] at h
      cases ht : req.text with
      | none => simp [ht] at h
      | some text =>
          simp only [ht] at h
          by_cases htr : jsTrim text = ""
          · rw [if_pos htr] at h; simp at h
          · rw [if_neg htr] at h
            refine ⟨text, rfl, rfl, htr, ?_⟩
            cases h1 : callLLM w.stage1 with
            | ok s1 =>
                simp only [h1] at h
                by_cases hc : 0 < (jLenOpt (jGet s1 "emails")).getD 0
                · rw [if_pos hc] at h
                  exact Or.inl ⟨s1, rfl, hc, h⟩
                · rw [if_neg hc] at h
                  exact Or.inr ⟨h, Or.inr ⟨s1, rfl, by omega⟩⟩
            | error e =>
                simp only [h1] at h
                exact Or.inr ⟨h, Or.inl ⟨e, rfl⟩⟩

/-! ## Claim C4 -/

/-- C4: for every input in which no `\x7b` or no `\x7d` occurs after fence
stripping, `cleanJSON` fails with the explicit "No JSON object found in
response" error — raised before any repair tier is attempted — rather than
crashing (it is a value of the `Except` error case, i.e. a thrown, catchable
`Error`). -/
theorem claim_C4_no_braces_parse_error (raw : String)
    (h : '\x7b' ∉ (stripFence raw).data ∨ '\x7d' ∉ (stripFence raw).data) :
    cleanJSON raw = .error "No JSON object found in response" := by
  have hdata : (stripFence raw).data = stripFenceL raw.data := rfl
  rw [hdata] at h
  unfold cleanJSON
  rcases h with h | h
  · rw [firstIdx_eq_none h]
  · rw [lastIdx_eq_none h]
    cases firstIdx (stripFenceL raw.data) '\x7b' <;> rfl

/-- Witness for C4 at a concrete input with no braces. -/
theorem claim_C4_witness :
    ('\x7b' ∉ (stripFence "no json here").data ∨ '\x7d' ∉ (stripFence "no json here").data) ∧
      cleanJSON "no json here" = .error "No JSON object found in response" :=
  ⟨by decide, claim_C4_no_braces_parse_error "no json here" (by decide)⟩

/-! ## Claim C6 (corrected) -/

/-- C6 counterexample: the control-character tier does not leave characters
outside string literals unchanged.  The candidate `"\x7b\n\x7d"` contains no
quote, hence no string literal, so its newline is not inside a string literal;
yet the tier rewrites the text. -/
theorem claim_C6_counterexample :
    ('"' ∉ ("\x7b\n\x7d" : String).data) ∧ ctrlFix "\x7b\n\x7d" ≠ "\x7b\n\x7d" := by
  constructor
  · decide
  · decide

/-- C6 (amended): the control-character repair tier rewrites every raw control
character of the candidate uniformly, with no sensitivity to string-literal
context (it distributes over concatenation): `\n`, `\r`, `\t` become
two-character escapes, every other sub-0x20 character is deleted, and every
character of code point at least 0x20 is left unchanged. -/
theorem claim_C6_ctrl_repair_uniform :
    (∀ s t : String, ctrlFix (s ++ t) = ctrlFix s ++ ctrlFix t) ∧
    ctrlFix "\n" = "\\n" ∧ ctrlFix "\r" = "\\r" ∧ ctrlFix "\t" = "\\t" ∧
    (∀ c : Char, c.toNat < 0x20 → c ≠ '\n' → c ≠ '\r' → c ≠ '\t' →
      ctrlFix (String.mk [c]) = "") ∧
    (∀ c : Char, ¬ c.toNat < 0x20 → ctrlFix (String.mk [c]) = String.mk [c]) := by
  refine ⟨?_, rfl, rfl, rfl, ?_, ?_⟩
  · intro s t
    simp only [ctrlFix, ctrlFixL, String.data_append, List.flatMap_append, mk_append]
  · intro c hlt hn hr ht
    simp [ctrlFix, ctrlFixL, escCtrl, hlt, hn, hr, ht]
  · intro c hlt
    simp [ctrlFix, ctrlFixL, escCtrl, hlt]

/-- Witness for C6 (amended), instantiating each universally quantified /
conditional part at concrete characters. -/
theorem claim_C6_witness :
    ctrlFix ("a" ++ "\n") = ctrlFix "a" ++ ctrlFix "\n" ∧
      ctrlFix (String.mk ['\x01']) = "" ∧ ctrlFix (String.mk ['z']) = String.mk ['z'] :=
  ⟨claim_C6_ctrl_repair_uniform.1 "a" "\n",
   claim_C6_ctrl_repair_uniform.2.2.2.2.1 '\x01' (by decide) (by decide) (by decide) (by decide),
   claim_C6_ctrl_repair_uniform.2.2.2.2.2 'z' (by decide)⟩

/-! ## Claim C8 (corrected) -/

/-- C8 counterexample: a request with blank text against a server missing its
OpenRouter credential is answered 500 (credential check first), not 400 —
refuting the unconditional claim.  (No outbound call is made either way.) -/
theorem claim_C8_counterexample :
    jsTrim "" = "" ∧
      apiAnalyze { openrouterKey := false, pineconeKey := false }
          { text := some "", model := none } worldNone =
        (.err 500 "Server missing OPENROUTER_API_KEY", []) :=
  ⟨rfl, rfl⟩

/-- C8 (amended): provided the server credential is configured, every analyze
request with missing, empty or whitespace-only text is answered
400 `\x7berror: "No email text provided"\x7d` with no outbound call; without
the credential the same requests get the 500 credential error, still with no
outbound call. -/
theorem claim_C8_blank_text_400 (env : Env) (req : Req) (w : World)
    (h : req.text = none ∨ ∃ t, req.text = some t ∧ jsTrim t = "") :
    (env.openrouterKey = true →
      apiAnalyze env req w = (.err 400 "No email text provided", [])) ∧
    (env.openrouterKey = false →
      apiAnalyze env req w = (.err 500 "Server missing OPENROUTER_API_KEY", [])) := by
  constructor
  · intro hk
    rcases h with h | ⟨t, ht, htr⟩
    · simp [apiAnalyze, hk, h]
    · simp [apiAnalyze, hk, ht, htr]
  · intro hk
    simp [apiAnalyze, hk]

/-- Witness for C8 (amended) at a whitespace-only body. -/
theorem claim_C8_witness :
    apiAnalyze { openrouterKey := true, pineconeKey := false }
        { text := some "  ", model := none } worldNone =
      (.err 400 "No email text provided", []) :=
  (claim_C8_blank_text_400 { openrouterKey := true, pineconeKey := false }
    { text := some "  ", model := none } worldNone
    (Or.inr ⟨"  ", rfl, by decide⟩)).1 rfl

/-! ## Concrete stage outputs for witnesses -/






/-! ## Claim C10 -/

/-- C10: in the two-stage merge, `parsed_emails` is the per-entry image of the
stage-1 messages, and each entry's `snippet` is exactly the first 80
characters of that message's cleaned body (hence at most 80 characters, and
empty when the body is absent), while `index`, `from`, `date` and `direction`
are passed through unchanged. -/
theorem claim_C10_snippet_contract (s1 s2 em : Json) :
    jGet (mergeResult s1 s2) "parsed_emails" =
      some (.arr ((jArrD (jOrD (jGet s1 "emails") (.arr []))).map mkParsedEmail)) ∧
    jGet (mkParsedEmail em) "snippet" = some (.str (jsSubstring (emailBodyStr em) 80)) ∧
    (jsSubstring (emailBodyStr em) 80).length ≤ 80 ∧
    (jGet em "body" = none → jsSubstring (emailBodyStr em) 80 = "") ∧
    jGet (mkParsedEmail em) "index" = jGet em "index" ∧
    jGet (mkParsedEmail em) "from" = jGet em "from" ∧
    jGet (mkParsedEmail em) "date" = jGet em "date" ∧
    jGet (mkParsedEmail em) "direction" = jGet em "direction" := by
  have hlen : (jsSubstring (emailBodyStr em) 80).length ≤ 80 := by
    show ((emailBodyStr em).data.take 80).length ≤ 80
    rw [List.length_take]
    omega
  have himp : jGet em "body" = none → jsSubstring (emailBodyStr em) 80 = "" := by
    intro hb
    simp [emailBodyStr, hb, jsSubstring]
  refine ⟨jGet_mergeResult_parsed s1 s2, ?_, hlen, himp, ?_, ?_, ?_, ?_⟩ <;>
    (cases hI : jGet em "index" <;> cases hF : jGet em "from" <;>
     cases hD : jGet em "date" <;> cases hR : jGet em "direction" <;>
     simp only [mkParsedEmail, objFields, hI, hF, hD, hR] <;> simp [jGet])

/-- Witness for C10 at a concrete message whose body exceeds 80 characters. -/
theorem claim_C10_witness :
    jGet (mkParsedEmail (Json.obj [("index", Json.num 1),
        ("body", Json.str (String.mk (List.replicate 100 'x')))])) "snippet" =
      some (.str (jsSubstring (emailBodyStr (Json.obj [("index", Json.num 1),
        ("body", Json.str (String.mk (List.replicate 100 'x')))])) 80)) ∧
    (jsSubstring (emailBodyStr (Json.obj [("index", Json.num 1),
        ("body", Json.str (String.mk (List.replicate 100 'x')))])) 80).length ≤ 80 :=
  ⟨(claim_C10_snippet_contract Json.null Json.null _).2.1,
   (claim_C10_snippet_contract Json.null Json.null _).2.2.1⟩

/-! ## Claim C9 -/

/-- C9: even when the Pinecone credential is present, the memory store and
similarity-query operations are attempted only when the result's final
assessment carries a truthy `deal_stage`; otherwise the response's `memory`
field is exactly `\x7bstored: false, similar: null\x7d` and no store or query
call is dispatched. -/
theorem claim_C9_memory_gated_on_deal_stage (env : Env) (req : Req) (w : World)
    (body : OkBody) (calls : List CallTag)
    (h : apiAnalyze env req w = (.ok body, calls))
    (hds : (match jGet body.result "final" with
            | some fv => jTruthy fv && truthyOpt (jGet fv "deal_stage")
            | none => false) = false) :
    body.memory = { stored := false, thread_id := none, similar := none } ∧
    (∀ tid, CallTag.memStore tid ∉ calls) ∧ CallTag.memQuery ∉ calls := by
  obtain ⟨text, ht, hk, htr, hcase⟩ := apiAnalyze_ok_cases h
  rcases hcase with ⟨s1, h1, hc, h2⟩ | ⟨hfb, hwhy⟩
  · obtain ⟨s2, l, harr, hs2, hbody, hcalls⟩ := twoStage_ok_inv h2
    have hfin : jGet body.result "final" = some (jOrD (jGet s2 "final") (.obj [])) := by
      rw [hbody]
      exact jGet_mergeResult_final s1 s2
    rw [hfin] at hds
    have hgate : (env.pineconeKey && jTruthy (jOrD (jGet s2 "final") (.obj [])) &&
        truthyOpt (jGet (jOrD (jGet s2 "final") (.obj [])) "deal_stage")) = false := by
      cases ha : jTruthy (jOrD (jGet s2 "final") (.obj [])) <;>
        cases hb : truthyOpt (jGet (jOrD (jGet s2 "final") (.obj [])) "deal_stage") <;>
        simp_all
    rw [hbody, hcalls]
    simp [memDispatch, hgate]
  · obtain ⟨fb, hok, hbody, hcalls⟩ := fallbackPath_ok_inv hfb
    have hfin : jGet body.result "final" = jGet fb "final" := by rw [hbody]
    rw [hfin] at hds
    have hgate : (env.pineconeKey &&
        (match jGet fb "final" with
         | some fv => jTruthy fv && truthyOpt (jGet fv "deal_stage")
         | none => false)) = false := by
      rw [hds]
      simp
    rw [hbody, hcalls]
    simp [memDispatch, hgate]



/-- Witness for C9: Pinecone configured, two-stage success, but the final
assessment carries no `deal_stage` — no memory calls, degraded memory field. -/
theorem claim_C9_witness :
    apiAnalyze { openrouterKey := true, pineconeKey := true }
        { text := some "hi", model := none }
        { stage1 := .content s1OK, stage2 := .content s2NoStage,
          fallback := .emptyContent, mem := memAllOk, now := 3 } =
      (.ok bodyC9, [CallTag.stage1 "hi", CallTag.stage2]) ∧
    bodyC9.memory = { stored := false, thread_id := none, similar := none } ∧
    CallTag.memQuery ∉ [CallTag.stage1 "hi", CallTag.stage2] := by
  have h : apiAnalyze { openrouterKey := true, pineconeKey := true }
      { text := some "hi", model := none }
      { stage1 := .content s1OK, stage2 := .content s2NoStage,
        fallback := .emptyContent, mem := memAllOk, now := 3 } =
      (.ok bodyC9, [CallTag.stage1 "hi", CallTag.stage2]) := by decide
  exact ⟨h, (claim_C9_memory_gated_on_deal_stage _ _ _ _ _ h (by decide)).1,
    (claim_C9_memory_gated_on_deal_stage _ _ _ _ _ h (by decide)).2.2⟩

/-! ## Claim C1 -/

/-- C1: every successful pipeline outcome (two-stage or fallback) reports
`email_count` equal to the number of parsed-message summaries in the returned
result, `analysis_count` equal to the number of per-message analyses in the
returned result (so the analysis list is neither truncated nor padded), and
`complete` exactly when the two agree; a mismatch still yields this success
response, with `complete = false`. -/
theorem claim_C1_response_counts (env : Env) (req : Req) (w : World)
    (body : OkBody) (calls : List CallTag)
    (h : apiAnalyze env req w = (.ok body, calls)) :
    (body.pipeline = "two-stage" ∨ body.pipeline = "fallback-single") ∧
    body.email_count = jLenOpt (jGet body.result "parsed_emails") ∧
    body.analysis_count = jLenOpt (jGet body.result "per_email") ∧
    body.complete = (body.email_count == body.analysis_count) ∧
    (body.email_count ≠ body.analysis_count → body.complete = false) := by
  obtain ⟨text, ht, hk, htr, hcase⟩ := apiAnalyze_ok_cases h
  rcases hcase with ⟨s1, h1, hc, h2⟩ | ⟨hfb, hwhy⟩
  · obtain ⟨s2, l, harr, hs2, hbody, hcalls⟩ := twoStage_ok_inv h2
    subst hbody
    refine ⟨Or.inl rfl, ?_, ?_, rfl, ?_⟩
    · show jLenOpt (jGet s1 "emails") = _
      rw [jGet_mergeResult_parsed, jOrD_arr_len harr, harr]
      simp [jLenOpt, jTruthy, jArrD]
    · show jLenOpt (jGet s2 "per_email") = _
      rw [jGet_mergeResult_per_email, jLenOpt_jOrD]
    · intro hne
      simpa using beq_eq_false_iff_ne.mpr hne
  · obtain ⟨fb, hok, hbody, hcalls⟩ := fallbackPath_ok_inv hfb
    subst hbody
    refine ⟨Or.inr rfl, rfl, rfl, rfl, ?_⟩
    intro hne
    simpa using beq_eq_false_iff_ne.mpr hne


/-- Witness for C1: a two-stage run in which stage 2 returned one analysis for
two parsed messages — returned successfully with `complete = false` and both
counts intact. -/
theorem claim_C1_witness :
    apiAnalyze { openrouterKey := true, pineconeKey := false }
        { text := some "hi", model := none }
        { stage1 := .content s1OK, stage2 := .content s2Mismatch,
          fallback := .emptyContent, mem := memAllOk, now := 7 } =
      (.ok bodyC1, [CallTag.stage1 "hi", CallTag.stage2]) ∧
    bodyC1.email_count = jLenOpt (jGet bodyC1.result "parsed_emails") ∧
    bodyC1.analysis_count = jLenOpt (jGet bodyC1.result "per_email") ∧
    bodyC1.complete = false := by
  have h : apiAnalyze { openrouterKey := true, pineconeKey := false }
      { text := some "hi", model := none }
      { stage1 := .content s1OK, stage2 := .content s2Mismatch,
        fallback := .emptyContent, mem := memAllOk, now := 7 } =
      (.ok bodyC1, [CallTag.stage1 "hi", CallTag.stage2]) := by decide
  exact ⟨h, (claim_C1_response_counts _ _ _ _ _ h).2.1,
    (claim_C1_response_counts _ _ _ _ _ h).2.2.1,
    (claim_C1_response_counts _ _ _ _ _ h).2.2.2.2 (by decide)⟩

/-! ## Forward-computation helpers for the handler -/

/-- When validation passes, stage 1 parses, and the email count is positive,
the handler runs the two-stage branch. -/
theorem apiAnalyze_eq_two_stage {env : Env} {req : Req} {w : World} {text : String}
    {s1 : Json} (hk : env.openrouterKey = true) (ht : req.text = some text)
    (htr : jsTrim text ≠ "") (h1 : callLLM w.stage1 = .ok s1)
    (hc : 0 < (jLenOpt (jGet s1 "emails")).getD 0) :
    apiAnalyze env req w =
      twoStage env w (lookupModel req.model) s1 (jLenOpt (jGet s1 "emails"))
        [CallTag.stage1 text] := by
  unfold apiAnalyze
  rw [hk]
  simp only [Bool.not_true, Bool.false_eq_true, if_false, ht]
  rw [if_neg htr]
  simp only [h1]
  rw [if_pos hc]

/-- When validation passes and stage 1 throws or reports no messages, the
handler runs the fallback branch. -/
theorem apiAnalyze_eq_fallback {env : Env} {req : Req} {w : World} {text : String}
    (hk : env.openrouterKey = true) (ht : req.text = some text)
    (htr : jsTrim text ≠ "")
    (h1 : ∀ s1, callLLM w.stage1 = .ok s1 → (jLenOpt (jGet s1 "emails")).getD 0 = 0) :
    apiAnalyze env req w =
      fallbackPath env w (lookupModel req.model) text [CallTag.stage1 text] := by
  unfold apiAnalyze
  rw [hk]
  simp only [Bool.not_true, Bool.false_eq_true, if_false, ht]
  rw [if_neg htr]
  cases hs : callLLM w.stage1 with
  | ok s1 =>
      simp only [hs]
      have h0 := h1 s1 hs
      rw [if_neg (by omega)]
  | error e => simp only [hs]

/-- The fallback branch always dispatches the single fallback call on the raw
unpreprocessed text. -/
theorem fallbackPath_calls_mem (env : Env) (w : World) (m text : String)
    (c1 : List CallTag) :
    CallTag.fallback ("Analyze this pasted email thread:\n\n" ++ text) ∈
      (fallbackPath env w m text c1).2 := by
  unfold fallbackPath
  cases hf : callLLM w.fallback <;> simp

/-- A successful fallback call yields the fallback-single success response
carrying the parsed object. -/
theorem fallbackPath_ok_of (env : Env) (w : World) (m text : String)
    (c1 : List CallTag) (fb : Json) (hf : callLLM w.fallback = .ok fb) :
    ∃ body, (fallbackPath env w m text c1).1 = .ok body ∧
      body.pipeline = "fallback-single" ∧ body.result = fb := by
  unfold fallbackPath
  simp only [hf]
  exact ⟨_, rfl, rfl, rfl⟩

/-! ## Claim C2 -/

/-- C2: whenever stage 1 throws (any `callLLM` error: transport, empty
completion, or `cleanJSON` failure) or returns zero messages, the handler does
not surface the stage-1 error but dispatches the single-call fallback on the
raw unpreprocessed text, and — when that call parses — responds with
`pipeline = "fallback-single"` carrying the fallback object. -/
theorem claim_C2_stage1_failure_fallback (env : Env) (req : Req) (w : World)
    (text : String) (hk : env.openrouterKey = true) (ht : req.text = some text)
    (htr : jsTrim text ≠ "")
    (h1 : ∀ s1, callLLM w.stage1 = .ok s1 → (jLenOpt (jGet s1 "emails")).getD 0 = 0) :
    CallTag.fallback ("Analyze this pasted email thread:\n\n" ++ text) ∈
      (apiAnalyze env req w).2 ∧
    (∀ fb, callLLM w.fallback = .ok fb →
      ∃ body, (apiAnalyze env req w).1 = .ok body ∧
        body.pipeline = "fallback-single" ∧ body.result = fb) := by
  rw [apiAnalyze_eq_fallback hk ht htr h1]
  exact ⟨fallbackPath_calls_mem env w (lookupModel req.model) text [CallTag.stage1 text],
    fun fb hf => fallbackPath_ok_of env w (lookupModel req.model) text [CallTag.stage1 text] fb hf⟩


/-- Witness for C2: stage 1 hits a transport error; the fallback call is
dispatched on the raw text and its parse is returned as fallback-single. -/
theorem claim_C2_witness :
    CallTag.fallback ("Analyze this pasted email thread:\n\n" ++ "raw") ∈
      (apiAnalyze { openrouterKey := true, pineconeKey := false }
        { text := some "raw", model := none }
        { stage1 := .httpError 500 "boom", stage2 := .emptyContent,
          fallback := .content fbOK, mem := memAllOk, now := 1 }).2 ∧
    ∃ body, (apiAnalyze { openrouterKey := true, pineconeKey := false }
        { text := some "raw", model := none }
        { stage1 := .httpError 500 "boom", stage2 := .emptyContent,
          fallback := .content fbOK, mem := memAllOk, now := 1 }).1 = .ok body ∧
      body.pipeline = "fallback-single" ∧ body.result = fbJson := by
  have H := claim_C2_stage1_failure_fallback
    { openrouterKey := true, pineconeKey := false } { text := some "raw", model := none }
    { stage1 := .httpError 500 "boom", stage2 := .emptyContent,
      fallback := .content fbOK, mem := memAllOk, now := 1 }
    "raw" rfl rfl (by decide) (fun s1 hs => by simp [callLLM] at hs)
  exact ⟨H.1, H.2 fbJson (by decide)⟩

/-! ## Claim C3 -/

/-- C3: an exception from stage 2 in the two-stage path, or from the fallback
analyzer, is fatal: the request is answered 500 with that error's (non-empty)
message, and the dispatched calls show no further fallback and no retry. -/
theorem claim_C3_stage2_and_fallback_fatal (env : Env) (req : Req) (w : World)
    (text : String) (hk : env.openrouterKey = true) (ht : req.text = some text)
    (htr : jsTrim text ≠ "") :
    (∀ s1 l e, callLLM w.stage1 = .ok s1 →
      0 < (jLenOpt (jGet s1 "emails")).getD 0 →
      jOrD (jGet s1 "emails") (.arr []) = .arr l → callLLM w.stage2 = .error e →
      apiAnalyze env req w = (.err 500 e, [CallTag.stage1 text, CallTag.stage2]) ∧
        e ≠ "") ∧
    (∀ e, (∀ s1, callLLM w.stage1 = .ok s1 → (jLenOpt (jGet s1 "emails")).getD 0 = 0) →
      callLLM w.fallback = .error e →
      apiAnalyze env req w = (.err 500 e,
        [CallTag.stage1 text,
         CallTag.fallback ("Analyze this pasted email thread:\n\n" ++ text)]) ∧
        e ≠ "") := by
  constructor
  · intro s1 l e h1 hc harr h2
    rw [apiAnalyze_eq_two_stage hk ht htr h1 hc]
    unfold twoStage
    simp only [harr, h2]
    exact ⟨rfl, callLLM_error_ne h2⟩
  · intro e h1 hf
    rw [apiAnalyze_eq_fallback hk ht htr h1]
    unfold fallbackPath
    simp only [hf]
    exact ⟨rfl, callLLM_error_ne hf⟩



/-- Witness for C3: stage 1 parses one message, stage 2 hits a 429 — the
request fails 500 with the transport message and only the two calls made. -/
theorem claim_C3_witness :
    apiAnalyze { openrouterKey := true, pineconeKey := false }
        { text := some "raw", model := none }
        { stage1 := .content s1Small, stage2 := .httpError 429 "rate",
          fallback := .emptyContent, mem := memAllOk, now := 1 } =
      (.err 500 "OpenRouter 429: rate", [CallTag.stage1 "raw", CallTag.stage2]) ∧
    "OpenRouter 429: rate" ≠ "" :=
  (claim_C3_stage2_and_fallback_fatal
    { openrouterKey := true, pineconeKey := false } { text := some "raw", model := none }
    { stage1 := .content s1Small, stage2 := .httpError 429 "rate",
      fallback := .emptyContent, mem := memAllOk, now := 1 }
    "raw" rfl rfl (by decide)).1 s1SmallJ
    [Json.obj [("index", Json.num 1), ("from", Json.str "A"),
               ("direction", Json.str "inbound"), ("body", Json.str "x")]]
    "OpenRouter 429: rate" (by decide) (by decide) (by decide) (by decide)

/-! ## Claim C7 -/

theorem twoStage_status (env : Env) (w : World) (mo : MemOracle) (m : String)
    (s1 : Json) (ec : Option Nat) (c1 : List CallTag) :
    (twoStage env { w with mem := mo } m s1 ec c1).1.statusCode =
      (twoStage env w m s1 ec c1).1.statusCode := by
  unfold twoStage
  simp only [show ({ w with mem := mo } : World).stage2 = w.stage2 from rfl]
  cases jOrD (jGet s1 "emails") (.arr []) <;> try rfl
  cases callLLM w.stage2 <;> rfl

theorem fallbackPath_status (env : Env) (w : World) (mo : MemOracle)
    (m text : String) (c1 : List CallTag) :
    (fallbackPath env { w with mem := mo } m text c1).1.statusCode =
      (fallbackPath env w m text c1).1.statusCode := by
  unfold fallbackPath
  simp only [show ({ w with mem := mo } : World).fallback = w.fallback from rfl]
  cases callLLM w.fallback <;> rfl

theorem apiAnalyze_no_key {env : Env} {req : Req} {w : World}
    (hk : env.openrouterKey = false) :
    apiAnalyze env req w = (.err 500 "Server missing OPENROUTER_API_KEY", []) := by
  unfold apiAnalyze
  rw [hk]
  rfl

theorem apiAnalyze_no_text {env : Env} {req : Req} {w : World}
    (hk : env.openrouterKey = true) (ht : req.text = none) :
    apiAnalyze env req w = (.err 400 "No email text provided", []) := by
  unfold apiAnalyze
  rw [hk, ht]
  rfl

theorem apiAnalyze_blank {env : Env} {req : Req} {w : World} {text : String}
    (hk : env.openrouterKey = true) (ht : req.text = some text)
    (htr : jsTrim text = "") :
    apiAnalyze env req w = (.err 400 "No email text provided", []) := by
  unfold apiAnalyze
  rw [hk, ht]
  simp [htr]

theorem apiAnalyze_status (env : Env) (req : Req) (w : World) (mo : MemOracle) :
    (apiAnalyze env req { w with mem := mo }).1.statusCode =
      (apiAnalyze env req w).1.statusCode := by
  cases hk : env.openrouterKey with
  | false =>
      rw [apiAnalyze_no_key (w := { w with mem := mo }) hk,
          apiAnalyze_no_key (w := w) hk]
  | true =>
      cases ht : req.text with
      | none =>
          rw [apiAnalyze_no_text (w := { w with mem := mo }) hk ht,
              apiAnalyze_no_text (w := w) hk ht]
      | some text =>
          by_cases htr : jsTrim text = ""
          · rw [apiAnalyze_blank (w := { w with mem := mo }) hk ht htr,
                apiAnalyze_blank (w := w) hk ht htr]
          · cases h1 : callLLM w.stage1 with
            | ok s1 =>
                by_cases hc : 0 < (jLenOpt (jGet s1 "emails")).getD 0
                · rw [apiAnalyze_eq_two_stage (w := { w with mem := mo }) hk ht htr h1 hc,
                      apiAnalyze_eq_two_stage (w := w) hk ht htr h1 hc]
                  exact twoStage_status env w mo (lookupModel req.model) s1
                    (jLenOpt (jGet s1 "emails")) [CallTag.stage1 text]
                · have hz : ∀ s1', callLLM w.stage1 = .ok s1' →
                      (jLenOpt (jGet s1' "emails")).getD 0 = 0 := by
                    intro s1' hs
                    rw [h1] at hs
                    injection hs with h'
                    rw [← h']
                    omega
                  rw [apiAnalyze_eq_fallback (w := { w with mem := mo }) hk ht htr hz,
                      apiAnalyze_eq_fallback (w := w) hk ht htr hz]
                  exact fallbackPath_status env w mo (lookupModel req.model) text
                    [CallTag.stage1 text]
            | error e =>
                have hz : ∀ s1', callLLM w.stage1 = .ok s1' →
                    (jLenOpt (jGet s1' "emails")).getD 0 = 0 := by
                  intro s1' hs
                  rw [h1] at hs
                  exact absurd hs (by simp)
                rw [apiAnalyze_eq_fallback (w := { w with mem := mo }) hk ht htr hz,
                    apiAnalyze_eq_fallback (w := w) hk ht htr hz]
                exact fallbackPath_status env w mo (lookupModel req.model) text
                  [CallTag.stage1 text]

/-- C7: failures of the optional memory side effect never fail an otherwise
successful analyze request: the response status is entirely independent of the
memory-operation outcomes, and when the store path failed (embedding or
upsert), the success response still comes back with `memory.stored = false`. -/
theorem claim_C7_memory_failure_isolated (env : Env) (req : Req) (w : World)
    (mo : MemOracle) :
    (apiAnalyze env req { w with mem := mo }).1.statusCode =
      (apiAnalyze env req w).1.statusCode ∧
    (∀ body calls, apiAnalyze env req w = (.ok body, calls) →
      ((∃ e, w.mem.storeEmbed = .error e) ∨ (∃ e, w.mem.storeUpsert = .error e)) →
      body.memory.stored = false) := by
  refine ⟨apiAnalyze_status env req w mo, ?_⟩
  intro body calls h hfail
  have hstore : (storeDeal env.pineconeKey w.mem).success = false := by
    unfold storeDeal
    cases hp : env.pineconeKey
    · rfl
    · rcases hfail with ⟨e, he⟩ | ⟨e, he⟩
      · simp [he]
      · cases hse : w.mem.storeEmbed with
        | error e2 => simp [hse]
        | ok u => simp [hse, he]
  obtain ⟨text, ht, hk, htr, hcase⟩ := apiAnalyze_ok_cases h
  rcases hcase with ⟨s1, h1, hc, h2⟩ | ⟨hfb, hwhy⟩
  · obtain ⟨s2, l, harr, hs2, hbody, hcalls⟩ := twoStage_ok_inv h2
    subst hbody
    show (memDispatch env w _).1.stored = false
    unfold memDispatch
    split
    · simpa using hstore
    · rfl
  · obtain ⟨fb, hok, hbody, hcalls⟩ := fallbackPath_ok_inv hfb
    subst hbody
    show (memDispatch env w _).1.stored = false
    unfold memDispatch
    split
    · simpa using hstore
    · rfl

/-- Witness for C7: the embedding call fails during the store; the two-stage
success response still has status 200 with `memory.stored = false`. -/
theorem claim_C7_witness :
    ((apiAnalyze { openrouterKey := true, pineconeKey := true }
        { text := some "hi", model := none }
        { stage1 := .content s1OK, stage2 := .content s2Mismatch,
          fallback := .emptyContent,
          mem := { storeEmbed := .error "Embedding API error: quota",
                   storeUpsert := .ok (), queryEmbed := .ok (), queryRes := .ok () },
          now := 7 }).1.statusCode = 200) ∧
    (∀ body calls,
      apiAnalyze { openrouterKey := true, pineconeKey := true }
          { text := some "hi", model := none }
          { stage1 := .content s1OK, stage2 := .content s2Mismatch,
            fallback := .emptyContent,
            mem := { storeEmbed := .error "Embedding API error: quota",
                     storeUpsert := .ok (), queryEmbed := .ok (), queryRes := .ok () },
            now := 7 } = (.ok body, calls) →
      body.memory.stored = false) := by
  constructor
  · decide
  · intro body calls h
    exact (claim_C7_memory_failure_isolated
      { openrouterKey := true, pineconeKey := true } { text := some "hi", model := none }
      { stage1 := .content s1OK, stage2 := .content s2Mismatch,
        fallback := .emptyContent,
        mem := { storeEmbed := .error "Embedding API error: quota",
                 storeUpsert := .ok (), queryEmbed := .ok (), queryRes := .ok () },
        now := 7 } memAllOk).2 body calls h (Or.inl ⟨"Embedding API error: quota", rfl⟩)

/-! ## C5: number serialization round trip -/

theorem digit_char_isDigit : ∀ m, m < 10 → isDigitC (Char.ofNat ('0'.toNat + m)) = true := by
  decide

theorem digit_char_toNat : ∀ m, m < 10 → (Char.ofNat ('0'.toNat + m)).toNat - '0'.toNat = m := by
  decide

theorem digit_char_ne_zero : ∀ m, 1 ≤ m → m < 10 → Char.ofNat ('0'.toNat + m) ≠ '0' := by
  decide

theorem natDigits_digits : ∀ n, ∀ c ∈ natDigits n, isDigitC c = true := by
  intro n
  induction n using Nat.strong_induction_on with
  | _ n IH =>
      match n with
      | 0 => simp [natDigits]
      | n + 1 =>
          rw [natDigits]
          intro c hc
          rcases List.mem_append.mp hc with h | h
          · exact IH ((n + 1) / 10) (Nat.div_lt_self (Nat.succ_pos n) (by norm_num)) c h
          · simp only [List.mem_singleton] at h
            subst h
            exact digit_char_isDigit _ (Nat.mod_lt _ (by norm_num))

theorem natDigits_ne_nil : ∀ n, 1 ≤ n → natDigits n ≠ [] := by
  intro n hn
  match n with
  | n + 1 =>
      rw [natDigits]
      simp

theorem natDigits_head_ne_zero :
    ∀ n, 1 ≤ n → ∀ c t, natDigits n = c :: t → c ≠ '0' := by
  intro n
  induction n using Nat.strong_induction_on with
  | _ n IH =>
      intro hn c t hd
      match n, hn with
      | n + 1, _ =>
          rw [natDigits] at hd
          rcases hq : (n + 1) / 10 with _ | q
          · rw [hq] at hd
            simp only [natDigits, List.nil_append] at hd
            have hm : n + 1 < 10 := by
              rcases Nat.lt_or_ge (n + 1) 10 with h | h
              · exact h
              · exact absurd hq (by omega)
            have : (n + 1) % 10 = n + 1 := Nat.mod_eq_of_lt hm
            rw [this] at hd
            cases hd
            exact digit_char_ne_zero (n + 1) (by omega) hm
          · have hne := natDigits_ne_nil ((n + 1) / 10) (by omega)
            rcases hh : natDigits ((n + 1) / 10) with _ | ⟨c0, t0⟩
            · exact absurd hh hne
            · rw [hh] at hd
              simp only [List.cons_append, List.cons.injEq] at hd
              rw [← hd.1]
              exact IH ((n + 1) / 10) (Nat.div_lt_self (Nat.succ_pos n) (by norm_num))
                (by omega) c0 t0 hh

theorem digitsToNat_append_singleton (xs : List Char) (d : Char) :
    digitsToNat (xs ++ [d]) = 10 * digitsToNat xs + (d.toNat - '0'.toNat) := by
  simp [digitsToNat, List.foldl_append]

theorem digitsToNat_natDigits : ∀ n, digitsToNat (natDigits n) = n := by
  intro n
  induction n using Nat.strong_induction_on with
  | _ n IH =>
      match n with
      | 0 => simp [natDigits, digitsToNat]
      | n + 1 =>
          rw [natDigits, digitsToNat_append_singleton,
            IH ((n + 1) / 10) (Nat.div_lt_self (Nat.succ_pos n) (by norm_num)),
            digit_char_toNat _ (Nat.mod_lt _ (by norm_num))]
          omega

theorem takeWhile_append_all {p : Char → Bool} :
    ∀ (l r : List Char), (∀ c ∈ l, p c = true) →
      (match r.head? with | some c => p c = false | none => True) →
      (l ++ r).takeWhile p = l ∧ (l ++ r).dropWhile p = r := by
  intro l
  induction l with
  | nil =>
      intro r _ hr
      cases r with
      | nil => simp
      | cons c t =>
          simp only [List.head?_cons] at hr
          simp [List.takeWhile, List.dropWhile, hr]
  | cons c l ih =>
      intro r hl hr
      have hc : p c = true := hl c (by simp)
      have := ih r (fun c hc => hl c (by simp [hc])) hr
      simp [List.takeWhile, List.dropWhile, hc, this.1, this.2]

theorem parseNat_spec (ds rest : List Char) (hne : ds ≠ [])
    (hall : ∀ c ∈ ds, isDigitC c = true)
    (hlead : 1 < ds.length → ds.head? ≠ some '0')
    (hrest : match rest.head? with
             | some c => isDigitC c = false ∧ c ≠ '.' ∧ c ≠ 'e' ∧ c ≠ 'E'
             | none => True) :
    parseNat (ds ++ rest) = some (digitsToNat ds, rest) := by
  have hdr : (match rest.head? with | some c => isDigitC c = false | none => True) := by
    cases hh : rest.head? with
    | none => simp
    | some c =>
        rw [hh] at hrest
        simpa using hrest.1
  obtain ⟨htake, hdrop⟩ := takeWhile_append_all ds rest hall hdr
  simp only [parseNat, htake, hdrop]
  rw [if_neg (by simpa [List.isEmpty_iff] using hne)]
  have hcond : (decide (1 < ds.length) && decide (ds.head? = some '0')) = false := by
    by_cases hl : 1 < ds.length
    · have := hlead hl
      simp [this]
    · simp [hl]
  rw [if_neg (by simp only [hcond]; exact Bool.false_ne_true)]
  cases hh : rest.head? with
  | none => simp [hh]
  | some c =>
      rw [hh] at hrest
      simp [hh, hrest.2.1, hrest.2.2.1, hrest.2.2.2]

theorem parseNat_natDigits {n : Nat} (hn : 1 ≤ n) {rest : List Char}
    (hrest : match rest.head? with
             | some c => isDigitC c = false ∧ c ≠ '.' ∧ c ≠ 'e' ∧ c ≠ 'E'
             | none => True) :
    parseNat (natDigits n ++ rest) = some (n, rest) := by
  rw [parseNat_spec (natDigits n) rest (natDigits_ne_nil n hn) (natDigits_digits n)
    ?lead hrest, digitsToNat_natDigits]
  case lead =>
    intro _
    rcases hh : natDigits n with _ | ⟨c0, t0⟩
    · exact absurd hh (natDigits_ne_nil n hn)
    · have := natDigits_head_ne_zero n hn c0 t0 hh
      simp [this]

theorem parseNum_numChars {i : Int} {rest : List Char}
    (hrest : match rest.head? with
             | some c => isDigitC c = false ∧ c ≠ '.' ∧ c ≠ 'e' ∧ c ≠ 'E'
             | none => True) :
    parseNum (numChars i ++ rest) = some (i, rest) := by
  by_cases hneg : i < 0
  · have hub : 1 ≤ i.natAbs := by omega
    have hcast : -((i.natAbs : Int)) = i := by omega
    simp only [numChars, if_pos hneg, List.cons_append, parseNum,
      parseNat_natDigits hub hrest, hcast]
  · by_cases hz : i = 0
    · subst hz
      have h0 : numChars 0 = ['0'] := by norm_num [numChars]
      have hp : parseNat (['0'] ++ rest) = some (digitsToNat ['0'], rest) :=
        parseNat_spec ['0'] rest (by simp) (by decide) (by simp) hrest
      have hdv : digitsToNat ['0'] = 0 := by decide
      rw [h0]
      simp only [List.singleton_append] at hp ⊢
      unfold parseNum
      split
      · rename_i t heq
        injection heq with h1 _
        exact absurd h1 (by decide)
      · rw [hp, hdv]
        simp
    · have hpos : 1 ≤ i.natAbs := by omega
      have hd : numChars i = natDigits i.natAbs := by
        simp [numChars, hneg, hz]
      have hne := natDigits_ne_nil i.natAbs hpos
      rcases hh : natDigits i.natAbs with _ | ⟨c0, t0⟩
      · exact absurd hh hne
      · have hc0 : isDigitC c0 = true := natDigits_digits i.natAbs c0 (by rw [hh]; simp)
        have hc0m : c0 ≠ '-' := by
          intro h
          rw [h] at hc0
          exact absurd hc0 (by decide)
        have hp : parseNat ((c0 :: t0) ++ rest) = some (i.natAbs, rest) := by
          rw [← hh]
          exact parseNat_natDigits hpos hrest
        have hcast : ((i.natAbs : Int)) = i := by omega
        rw [hd, hh]
        simp only [List.cons_append] at hp ⊢
        unfold parseNum
        split
        · rename_i t heq
          injection heq with h1 _
          exact absurd h1 hc0m
        · rw [hp]
          simp [hcast]

/-! ## C5: string literal round trip -/

theorem char_ofNat_toNat (c : Char) : Char.ofNat c.toNat = c := by
  unfold Char.ofNat
  split
  · rename_i h
    refine Char.eq_of_val_eq ?_
    apply UInt32.eq_of_toBitVec_eq
    apply BitVec.eq_of_toNat_eq
    simp [Char.ofNatAux, Char.toNat, UInt32.ofNat']
    rfl
  · rename_i h
    exact absurd (by exact c.valid) (by simpa [Char.toNat, UInt32.isValidChar] using h)

theorem hexVal_hexDig : ∀ m, m < 16 → hexVal (hexDig m) = some m := by
  decide

theorem parseStrBody_esc : ∀ (s rest : List Char),
    parseStrBody (escStr s ++ '"' :: rest) = some (s, rest) := by
  intro s
  induction s with
  | nil =>
      intro rest
      simp only [escStr, List.flatMap_nil, List.nil_append]
      unfold parseStrBody
      rfl
  | cons c s ih =>
      intro rest
      simp only [escStr, List.flatMap_cons, List.append_assoc]
      show parseStrBody (escChar c ++ (escStr s ++ '"' :: rest)) = _
      by_cases hq : c = '"'
      · subst hq
        rw [show escChar '"' = ['\\', '"'] from rfl]
        simp only [List.cons_append, List.nil_append]
        unfold parseStrBody
        simp [ih rest]
      · by_cases hb : c = '\\'
        · subst hb
          rw [show escChar '\\' = ['\\', '\\'] from rfl]
          simp only [List.cons_append, List.nil_append]
          unfold parseStrBody
          simp [ih rest]
        · by_cases hn : c = '\n'
          · subst hn
            rw [show escChar '\n' = ['\\', 'n'] from rfl]
            simp only [List.cons_append, List.nil_append]
            unfold parseStrBody
            simp [ih rest]
          · by_cases hr2 : c = '\r'
            · subst hr2
              rw [show escChar '\r' = ['\\', 'r'] from rfl]
              simp only [List.cons_append, List.nil_append]
              unfold parseStrBody
              simp [ih rest]
            · by_cases ht2 : c = '\t'
              · subst ht2
                rw [show escChar '\t' = ['\\', 't'] from rfl]
                simp only [List.cons_append, List.nil_append]
                unfold parseStrBody
                simp [ih rest]
              · by_cases hctrl : c.toNat < 0x20
                · have h0 : hexVal '0' = some 0 := by decide
                  have hesc : escChar c =
                      ['\\', 'u', '0', '0', hexDig (c.toNat / 16), hexDig (c.toNat % 16)] := by
                    simp [escChar, hq, hb, hn, hr2, ht2, hctrl]
                  rw [hesc]
                  simp only [List.cons_append, List.nil_append]
                  unfold parseStrBody
                  simp [ih rest, h0, hexVal_hexDig (c.toNat / 16) (by omega),
                    hexVal_hexDig (c.toNat % 16) (by omega)]
                  rw [show c.toNat / 16 * 16 + c.toNat % 16 = c.toNat by omega]
                  exact char_ofNat_toNat c
                · have hesc : escChar c = [c] := by
                    simp [escChar, hq, hb, hn, hr2, ht2, hctrl]
                  rw [hesc]
                  simp only [List.cons_append, List.nil_append]
                  unfold parseStrBody
                  simp [hq, hb, hctrl, ih rest]

/-! ### Round trip: parsing serializer output -/

theorem jfuel_pos : ∀ j : Json, 1 ≤ jfuel j := by
  intro j
  cases j <;> simp [jfuel]

theorem lfuel_pos : ∀ l : List Json, 1 ≤ lfuel l := by
  intro l
  cases l <;> simp [lfuel] <;> omega

theorem ffuel_pos : ∀ l : List (String × Json), 1 ≤ ffuel l := by
  intro l
  cases l with
  | nil => simp [ffuel]
  | cons p t => obtain ⟨k, v⟩ := p; simp [ffuel]; omega

theorem skipWs_cons (c : Char) (t : List Char) (h : isJsonWs c = false) :
    skipWs (c :: t) = c :: t := by
  simp [skipWs, List.dropWhile, h]

theorem seqRest_valRest (r : List Char) (h : seqRest r) : valRest r := by
  unfold seqRest at h
  unfold valRest
  cases hh : r.head? with
  | none => trivial
  | some c =>
      rw [hh] at h
      rcases h with h | h
      · exact Or.inr (Or.inl h)
      · exact Or.inr (Or.inr h)

theorem valRest_skipWs (r : List Char) (h : valRest r) : skipWs r = r := by
  unfold valRest at h
  cases r with
  | nil => rfl
  | cons c t =>
      simp only [List.head?] at h
      rcases h with h | h | h <;> (subst h; exact skipWs_cons _ _ (by decide))

theorem seqRest_skipWs (r : List Char) (h : seqRest r) : skipWs r = r :=
  valRest_skipWs r (seqRest_valRest r h)

theorem seqRest_head_ne_comma (r : List Char) (h : seqRest r) :
    ¬ r.head? = some ',' := by
  unfold seqRest at h
  cases hh : r.head? with
  | none => simp
  | some c =>
      rw [hh] at h
      rcases h with h | h <;> (subst h; simp)

theorem valRest_numRest (r : List Char) (h : valRest r) :
    (match r.head? with
     | some c => isDigitC c = false ∧ c ≠ '.' ∧ c ≠ 'e' ∧ c ≠ 'E'
     | none => True) := by
  unfold valRest at h
  cases hh : r.head? with
  | none => trivial
  | some c =>
      rw [hh] at h
      rcases h with h | h | h <;> (subst h; exact ⟨by decide, by decide, by decide, by decide⟩)

theorem isDigit_ne_of_not (c d : Char) (h : isDigitC c = true) (hd : isDigitC d = false) :
    c ≠ d := by
  intro he
  rw [he, hd] at h
  cases h

theorem isDigit_not_ws (c : Char) (h : isDigitC c = true) : isJsonWs c = false := by
  cases hw : isJsonWs c
  · rfl
  · exfalso
    simp only [isJsonWs, Bool.or_eq_true, decide_eq_true_eq] at hw
    rcases hw with ((h1 | h1) | h1) | h1 <;> (rw [h1] at h; exact absurd h (by decide))

theorem numChars_starts (i : Int) :
    ∃ c t, numChars i = c :: t ∧ (c = '-' ∨ isDigitC c = true) := by
  unfold numChars
  by_cases hneg : i < 0
  · exact ⟨'-', natDigits i.natAbs, by simp [hneg], Or.inl rfl⟩
  · by_cases hz : i = 0
    · exact ⟨'0', [], by simp [hneg, hz], Or.inr (by decide)⟩
    · have hpos : 1 ≤ i.natAbs := by omega
      rcases hh : natDigits i.natAbs with _ | ⟨c0, t0⟩
      · exact absurd hh (natDigits_ne_nil _ hpos)
      · refine ⟨c0, t0, by simp [hneg, hz, hh], Or.inr ?_⟩
        exact natDigits_digits i.natAbs c0 (by rw [hh]; simp)

theorem serV_starts (j : Json) :
    ∃ c t, serV j = c :: t ∧ isJsonWs c = false ∧ c ≠ ']' ∧ c ≠ '\x7d' := by
  cases j with
  | null =>
      refine ⟨'n', _, rfl, ?_, ?_, ?_⟩ <;> decide
  | bool b =>
      cases b <;> (refine ⟨_, _, rfl, ?_, ?_, ?_⟩ <;> decide)
  | num n =>
      obtain ⟨c, t, hct, hc⟩ := numChars_starts n
      refine ⟨c, t, by simp [serV, hct], ?_, ?_, ?_⟩
      · rcases hc with h | h
        · subst h; decide
        · exact isDigit_not_ws c h
      · rcases hc with h | h
        · subst h; decide
        · exact isDigit_ne_of_not c _ h (by decide)
      · rcases hc with h | h
        · subst h; decide
        · exact isDigit_ne_of_not c _ h (by decide)
  | str s =>
      refine ⟨'"', _, rfl, ?_, ?_, ?_⟩ <;> decide
  | arr l =>
      refine ⟨'[', _, rfl, ?_, ?_, ?_⟩ <;> decide
  | obj l =>
      refine ⟨'\x7b', _, rfl, ?_, ?_, ?_⟩ <;> decide

theorem skipWs_colon (X : List Char) : skipWs (':' :: X) = ':' :: X :=
  skipWs_cons _ _ (by decide)

theorem skipWs_comma (X : List Char) : skipWs (',' :: X) = ',' :: X :=
  skipWs_cons _ _ (by decide)

theorem skipWs_quote (X : List Char) : skipWs ('"' :: X) = '"' :: X :=
  skipWs_cons _ _ (by decide)

theorem serItems_cons_starts (x : Json) (tl : List Json) :
    ∃ c t, serItems (x :: tl) = c :: t ∧ isJsonWs c = false ∧ c ≠ ']' ∧ c ≠ '\x7d' := by
  obtain ⟨c0, t0, hct, hws, hb1, hb2⟩ := serV_starts x
  exact ⟨c0, t0 ++ serTail tl, by simp [serItems, hct], hws, hb1, hb2⟩

/-- Round trip: with enough fuel, the parser recovers every serialized value,
element sequence, and member sequence exactly, leaving the continuation. -/
theorem parseF_ser : ∀ f : Nat,
    (∀ j rest, jfuel j ≤ f → valRest rest →
        parseF f .val (serV j ++ rest) = some (.v j, rest)) ∧
    (∀ l rest, l ≠ [] → lfuel l ≤ f → seqRest rest →
        parseF f .items (serItems l ++ rest) = some (.items l, rest)) ∧
    (∀ fl rest, fl ≠ [] → ffuel fl ≤ f → seqRest rest →
        parseF f .fields (serFields fl ++ rest) = some (.fields fl, rest)) := by
  intro f
  induction f with
  | zero =>
      refine ⟨?_, ?_, ?_⟩
      · intro j rest hf _
        exact absurd hf (by have := jfuel_pos j; omega)
      · intro l rest _ hf _
        exact absurd hf (by have := lfuel_pos l; omega)
      · intro fl rest _ hf _
        exact absurd hf (by have := ffuel_pos fl; omega)
  | succ f IH =>
      obtain ⟨IHv, IHi, IHf⟩ := IH
      refine ⟨?_, ?_, ?_⟩
      · intro j rest hf hrest
        cases j with
        | null =>
            show parseF (f + 1) .val (['n', 'u', 'l', 'l'] ++ rest) = _
            simp only [List.cons_append, List.nil_append]
            unfold parseF
            simp
        | bool b =>
            cases b with
            | true =>
                show parseF (f + 1) .val (['t', 'r', 'u', 'e'] ++ rest) = _
                simp only [List.cons_append, List.nil_append]
                unfold parseF
                simp
            | false =>
                show parseF (f + 1) .val (['f', 'a', 'l', 's', 'e'] ++ rest) = _
                simp only [List.cons_append, List.nil_append]
                unfold parseF
                simp
        | num n =>
            obtain ⟨c0, t0, hct, hc⟩ := numChars_starts n
            have hnum : parseNum (numChars n ++ rest) = some (n, rest) :=
              parseNum_numChars (valRest_numRest rest hrest)
            rw [hct] at hnum
            simp only [List.cons_append] at hnum
            show parseF (f + 1) .val (numChars n ++ rest) = _
            rw [hct]
            simp only [List.cons_append]
            rcases hc with h | h
            · subst h
              unfold parseF
              simp [hnum]
            · have h1 : ¬ c0 = 'n' := isDigit_ne_of_not _ _ h (by decide)
              have h2 : ¬ c0 = 't' := isDigit_ne_of_not _ _ h (by decide)
              have h3 : ¬ c0 = 'f' := isDigit_ne_of_not _ _ h (by decide)
              have h4 : ¬ c0 = '"' := isDigit_ne_of_not _ _ h (by decide)
              have h5 : ¬ c0 = '[' := isDigit_ne_of_not _ _ h (by decide)
              have h6 : ¬ c0 = '\x7b' := isDigit_ne_of_not _ _ h (by decide)
              unfold parseF
              simp [h1, h2, h3, h4, h5, h6, h, hnum]
        | str s =>
            show parseF (f + 1) .val (('"' :: (escStr s.data ++ ['"'])) ++ rest) = _
            simp only [List.cons_append, List.append_assoc, List.singleton_append]
            unfold parseF
            simp [parseStrBody_esc s.data rest]
        | arr l =>
            cases l with
            | nil =>
                show parseF (f + 1) .val (('[' :: (serItems [] ++ [']'])) ++ rest) = _
                simp only [serItems, List.nil_append, List.cons_append,
                  List.singleton_append]
                unfold parseF
                rw [skipWs_cons ']' rest (by decide)]
                simp
            | cons x tl =>
                obtain ⟨c0, t0, hct, hws, hnb, _⟩ := serItems_cons_starts x tl
                have hlf : lfuel (x :: tl) ≤ f := by
                  have : jfuel (.arr (x :: tl)) = 1 + lfuel (x :: tl) := by simp [jfuel]
                  omega
                have hIH := IHi (x :: tl) (']' :: rest) (by simp) hlf
                  (by unfold seqRest; simp)
                show parseF (f + 1) .val
                    (('[' :: (serItems (x :: tl) ++ [']'])) ++ rest) = _
                simp only [List.cons_append, List.append_assoc, List.singleton_append]
                unfold parseF
                have hsk : skipWs (serItems (x :: tl) ++ ']' :: rest) =
                    serItems (x :: tl) ++ ']' :: rest := by
                  rw [hct]
                  simp only [List.cons_append]
                  exact skipWs_cons _ _ hws
                have hhd : (serItems (x :: tl) ++ ']' :: rest).head? = some c0 := by
                  rw [hct]; simp
                simp [hsk, hhd, hnb, hIH]
        | obj l =>
            cases l with
            | nil =>
                show parseF (f + 1) .val
                    (('\x7b' :: (serFields [] ++ ['\x7d'])) ++ rest) = _
                simp only [serFields, List.nil_append, List.cons_append,
                  List.singleton_append]
                unfold parseF
                rw [skipWs_cons '\x7d' rest (by decide)]
                simp
            | cons p tl =>
                obtain ⟨k, v⟩ := p
                have hff : ffuel ((k, v) :: tl) ≤ f := by
                  have : jfuel (.obj ((k, v) :: tl)) = 1 + ffuel ((k, v) :: tl) := by
                    simp [jfuel]
                  omega
                have hIH := IHf ((k, v) :: tl) ('\x7d' :: rest) (by simp) hff
                  (by unfold seqRest; simp)
                show parseF (f + 1) .val
                    (('\x7b' :: (serFields ((k, v) :: tl) ++ ['\x7d'])) ++ rest) = _
                simp only [List.cons_append, List.append_assoc, List.singleton_append]
                unfold parseF
                have hsk : skipWs (serFields ((k, v) :: tl) ++ '\x7d' :: rest) =
                    serFields ((k, v) :: tl) ++ '\x7d' :: rest := by
                  simp only [serFields, List.cons_append]
                  exact skipWs_cons _ _ (by decide)
                have hhd : (serFields ((k, v) :: tl) ++ '\x7d' :: rest).head? =
                    some '"' := by
                  simp [serFields]
                simp [hsk, hhd, hIH]
      · intro l rest hne hlf hrest
        match l with
        | x :: t =>
            have hjf : jfuel x ≤ f := by
              have : lfuel (x :: t) = 1 + jfuel x + lfuel t := by simp [lfuel]
              omega
            show parseF (f + 1) .items ((serV x ++ serTail t) ++ rest) = _
            simp only [List.append_assoc]
            unfold parseF
            cases t with
            | nil =>
                have hv := IHv x rest hjf (seqRest_valRest rest hrest)
                simp only [serTail, List.nil_append] at hv ⊢
                rw [hv]
                simp [seqRest_skipWs rest hrest, seqRest_head_ne_comma rest hrest]
            | cons y t2 =>
                have hv := IHv x (serTail (y :: t2) ++ rest) hjf
                  (by unfold valRest; simp [serTail])
                have hl2 : lfuel (y :: t2) ≤ f := by
                  have : lfuel (x :: y :: t2) = 1 + jfuel x + lfuel (y :: t2) := by
                    simp [lfuel]
                  omega
                have hIH2 := IHi (y :: t2) rest (by simp) hl2 hrest
                have hsk : skipWs (serTail (y :: t2) ++ rest) =
                    ',' :: (serV y ++ (serTail t2 ++ rest)) := by
                  simp only [serTail, List.cons_append, List.append_assoc]
                  exact skipWs_comma _
                have hsk2 : skipWs (serV y ++ (serTail t2 ++ rest)) =
                    serV y ++ (serTail t2 ++ rest) := by
                  obtain ⟨cv, tv, hcv, hwsv, _, _⟩ := serV_starts y
                  rw [hcv]
                  simp only [List.cons_append]
                  exact skipWs_cons _ _ hwsv
                have hgi : serV y ++ (serTail t2 ++ rest) =
                    serItems (y :: t2) ++ rest := by simp [serItems]
                have hsk5 : skipWs (serItems (y :: t2) ++ rest) =
                    serItems (y :: t2) ++ rest := by
                  obtain ⟨c0, t0, hct, hws, _, _⟩ := serItems_cons_starts y t2
                  rw [hct]
                  simp only [List.cons_append]
                  exact skipWs_cons _ _ hws
                rw [hv]
                simp [hsk, hsk2, hgi, hsk5, hIH2]
      · intro fl rest hne hff hrest
        match fl with
        | (k, v) :: t =>
            have hjf : jfuel v ≤ f := by
              have : ffuel ((k, v) :: t) = 1 + jfuel v + ffuel t := by simp [ffuel]
              omega
            show parseF (f + 1) .fields
                ((('"' :: (escStr k.data ++ '"' :: ':' :: serV v)) ++ serFTail t) ++ rest) = _
            simp only [List.cons_append, List.append_assoc]
            unfold parseF
            have hskv : skipWs (serV v ++ (serFTail t ++ rest)) =
                serV v ++ (serFTail t ++ rest) := by
              obtain ⟨cv, tv, hcv, hwsv, _, _⟩ := serV_starts v
              rw [hcv]
              simp only [List.cons_append]
              exact skipWs_cons _ _ hwsv
            cases t with
            | nil =>
                have hv := IHv v rest hjf (seqRest_valRest rest hrest)
                simp only [serFTail, List.nil_append] at hskv
                simp [parseStrBody_esc, skipWs_colon, serFTail, hskv, hv,
                  seqRest_skipWs rest hrest, seqRest_head_ne_comma rest hrest]
            | cons p t2 =>
                obtain ⟨k2, v2⟩ := p
                have hv := IHv v (serFTail ((k2, v2) :: t2) ++ rest) hjf
                  (by unfold valRest; simp [serFTail])
                have hf2 : ffuel ((k2, v2) :: t2) ≤ f := by
                  have : ffuel ((k, v) :: (k2, v2) :: t2) =
                      1 + jfuel v + ffuel ((k2, v2) :: t2) := by simp [ffuel]
                  omega
                have hIH2 := IHf ((k2, v2) :: t2) rest (by simp) hf2 hrest
                simp only [serFTail, serFields, List.cons_append, List.append_assoc]
                  at hv hIH2
                simp only [serFTail, List.cons_append, List.append_assoc] at hskv
                simp [parseStrBody_esc, skipWs_colon, skipWs_comma, skipWs_quote,
                  serFTail, hskv, hv, hIH2]

/-! ### Tier 1 fails on trailing-comma serializations of nonempty containers -/

theorem serTCv_simple : ∀ j : Json, simpleVal j → serTCv j = serV j := by
  intro j h
  cases j with
  | null => rfl
  | bool b => cases b <;> rfl
  | num n => rfl
  | str s => rfl
  | arr l =>
      cases l with
      | nil => simp [serTCv, serV, serItems]
      | cons x t => exact absurd h (by simp [simpleVal])
  | obj l =>
      cases l with
      | nil => simp [serTCv, serV, serFields]
      | cons p t => exact absurd h (by simp [simpleVal])

theorem serTCv_starts (j : Json) :
    ∃ c t, serTCv j = c :: t ∧ isJsonWs c = false ∧ c ≠ ']' ∧ c ≠ '\x7d' := by
  cases j with
  | null =>
      refine ⟨'n', _, rfl, ?_, ?_, ?_⟩ <;> decide
  | bool b =>
      cases b <;> (refine ⟨_, _, rfl, ?_, ?_, ?_⟩ <;> decide)
  | num n =>
      obtain ⟨c, t, hct, hc⟩ := numChars_starts n
      refine ⟨c, t, by simp [serTCv, hct], ?_, ?_, ?_⟩
      · rcases hc with h | h
        · subst h; decide
        · exact isDigit_not_ws c h
      · rcases hc with h | h
        · subst h; decide
        · exact isDigit_ne_of_not c _ h (by decide)
      · rcases hc with h | h
        · subst h; decide
        · exact isDigit_ne_of_not c _ h (by decide)
  | str s =>
      refine ⟨'"', _, rfl, ?_, ?_, ?_⟩ <;> decide
  | arr l =>
      cases l <;> (refine ⟨'[', _, rfl, ?_, ?_, ?_⟩ <;> decide)
  | obj l =>
      cases l with
      | nil => refine ⟨'\x7b', _, rfl, ?_, ?_, ?_⟩ <;> decide
      | cons p t =>
          obtain ⟨k, v⟩ := p
          refine ⟨'\x7b', _, rfl, ?_, ?_, ?_⟩ <;> decide

theorem parseF_val_rb (f : Nat) (X : List Char) : parseF f .val (']' :: X) = none := by
  cases f with
  | zero => rfl
  | succ f =>
      unfold parseF
      simp
      intro h
      exact absurd h (by decide)

theorem parseF_val_rbrace (f : Nat) (X : List Char) :
    parseF f .val ('\x7d' :: X) = none := by
  cases f with
  | zero => rfl
  | succ f =>
      unfold parseF
      simp
      intro h
      exact absurd h (by decide)

theorem parseF_items_rb (f : Nat) (X : List Char) :
    parseF f .items (']' :: X) = none := by
  cases f with
  | zero => rfl
  | succ f =>
      unfold parseF
      rw [parseF_val_rb]

theorem parseF_fields_not_quote (f : Nat) (c : Char) (X : List Char) (h : ¬ c = '"') :
    parseF f .fields (c :: X) = none := by
  cases f with
  | zero => rfl
  | succ f =>
      unfold parseF
      split
      · rename_i heq
        injection heq with h1 _
        exact absurd h1 h
      · rfl

/-- With any nonzero fuel, a value with no elements or members parses from its
serialization without consuming fuel. -/
theorem parseF_simple (f : Nat) (j : Json) (hs : simpleVal j) (rest : List Char)
    (hrest : valRest rest) :
    parseF (f + 1) .val (serV j ++ rest) = some (.v j, rest) := by
  cases j with
  | null =>
      show parseF (f + 1) .val (['n', 'u', 'l', 'l'] ++ rest) = _
      simp only [List.cons_append, List.nil_append]
      unfold parseF
      simp
  | bool b =>
      cases b with
      | true =>
          show parseF (f + 1) .val (['t', 'r', 'u', 'e'] ++ rest) = _
          simp only [List.cons_append, List.nil_append]
          unfold parseF
          simp
      | false =>
          show parseF (f + 1) .val (['f', 'a', 'l', 's', 'e'] ++ rest) = _
          simp only [List.cons_append, List.nil_append]
          unfold parseF
          simp
  | num n =>
      obtain ⟨c0, t0, hct, hc⟩ := numChars_starts n
      have hnum : parseNum (numChars n ++ rest) = some (n, rest) :=
        parseNum_numChars (valRest_numRest rest hrest)
      rw [hct] at hnum
      simp only [List.cons_append] at hnum
      show parseF (f + 1) .val (numChars n ++ rest) = _
      rw [hct]
      simp only [List.cons_append]
      rcases hc with h | h
      · subst h
        unfold parseF
        simp [hnum]
      · have h1 : ¬ c0 = 'n' := isDigit_ne_of_not _ _ h (by decide)
        have h2 : ¬ c0 = 't' := isDigit_ne_of_not _ _ h (by decide)
        have h3 : ¬ c0 = 'f' := isDigit_ne_of_not _ _ h (by decide)
        have h4 : ¬ c0 = '"' := isDigit_ne_of_not _ _ h (by decide)
        have h5 : ¬ c0 = '[' := isDigit_ne_of_not _ _ h (by decide)
        have h6 : ¬ c0 = '\x7b' := isDigit_ne_of_not _ _ h (by decide)
        unfold parseF
        simp [h1, h2, h3, h4, h5, h6, h, hnum]
  | str s =>
      show parseF (f + 1) .val (('"' :: (escStr s.data ++ ['"'])) ++ rest) = _
      simp only [List.cons_append, List.append_assoc, List.singleton_append]
      unfold parseF
      simp [parseStrBody_esc s.data rest]
  | arr l =>
      cases l with
      | nil =>
          show parseF (f + 1) .val (('[' :: (serItems [] ++ [']'])) ++ rest) = _
          simp only [serItems, List.nil_append, List.cons_append, List.singleton_append]
          unfold parseF
          rw [skipWs_cons ']' rest (by decide)]
          simp
      | cons x t => exact absurd hs (by simp [simpleVal])
  | obj l =>
      cases l with
      | nil =>
          show parseF (f + 1) .val (('\x7b' :: (serFields [] ++ ['\x7d'])) ++ rest) = _
          simp only [serFields, List.nil_append, List.cons_append, List.singleton_append]
          unfold parseF
          rw [skipWs_cons '\x7d' rest (by decide)]
          simp
      | cons p t => exact absurd hs (by simp [simpleVal])

theorem simpleVal_or_nonempty (j : Json) : simpleVal j ∨ nonemptyContainer j := by
  cases j with
  | null => exact Or.inl trivial
  | bool b => exact Or.inl trivial
  | num n => exact Or.inl trivial
  | str s => exact Or.inl trivial
  | arr l => cases l with
             | nil => exact Or.inl trivial
             | cons x t => exact Or.inr trivial
  | obj l => cases l with
             | nil => exact Or.inl trivial
             | cons p t => exact Or.inr trivial

theorem parseF_zero (m : PMode) (cs : List Char) : parseF 0 m cs = none := rfl

theorem parseF_items_rbrace (f : Nat) (X : List Char) :
    parseF f .items ('\x7d' :: X) = none := by
  cases f with
  | zero => rfl
  | succ f =>
      unfold parseF
      rw [parseF_val_rbrace]

/-- The strict parser rejects every trailing-comma serialization of a nonempty
container: the lookahead after the last element or member sees the trailing
comma, recurses, and hits the closing bracket where a value or key must
start. -/
theorem parseF_serTC_fail : ∀ f : Nat,
    (∀ j rest, nonemptyContainer j → parseF f .val (serTCv j ++ rest) = none) ∧
    (∀ x t rest, rest.head? = some ']' ∨ rest.head? = some '\x7d' →
        parseF f .items (serTCv x ++ (serTCtail t ++ (',' :: rest))) = none) ∧
    (∀ k v t rest, rest.head? = some ']' ∨ rest.head? = some '\x7d' →
        parseF f .fields (('"' :: (escStr k ++ '"' :: ':' :: serTCv v)) ++
          (serTCftail t ++ (',' :: rest))) = none) := by
  intro f
  induction f with
  | zero => exact ⟨fun _ _ _ => rfl, fun _ _ _ _ => rfl, fun _ _ _ _ _ => rfl⟩
  | succ f IH =>
      obtain ⟨IHv, IHi, IHf⟩ := IH
      refine ⟨?_, ?_, ?_⟩
      · intro j rest hj
        cases j with
        | null => exact absurd hj (by simp [nonemptyContainer])
        | bool b => exact absurd hj (by simp [nonemptyContainer])
        | num n => exact absurd hj (by simp [nonemptyContainer])
        | str s => exact absurd hj (by simp [nonemptyContainer])
        | arr l =>
            cases l with
            | nil => exact absurd hj (by simp [nonemptyContainer])
            | cons x t =>
                obtain ⟨c0, t0, hct, hws, hb1, _⟩ := serTCv_starts x
                have hIH := IHi x t (']' :: rest) (Or.inl rfl)
                show parseF (f + 1) .val
                    (('[' :: ((serTCv x ++ serTCtail t) ++ [',', ']'])) ++ rest) = _
                simp only [List.cons_append, List.append_assoc]
                unfold parseF
                have hsk : skipWs (serTCv x ++ (serTCtail t ++ (',' :: (']' :: rest)))) =
                    serTCv x ++ (serTCtail t ++ (',' :: (']' :: rest))) := by
                  rw [hct]
                  simp only [List.cons_append]
                  exact skipWs_cons _ _ hws
                have hhd : (serTCv x ++ (serTCtail t ++ (',' :: (']' :: rest)))).head? =
                    some c0 := by
                  rw [hct]; simp
                simp [hsk, hhd, hb1, hIH]
        | obj l =>
            cases l with
            | nil => exact absurd hj (by simp [nonemptyContainer])
            | cons p t =>
                obtain ⟨k, v⟩ := p
                have hIH := IHf k.data v t ('\x7d' :: rest) (Or.inr rfl)
                show parseF (f + 1) .val
                    (('\x7b' :: ((('"' :: (escStr k.data ++ '"' :: ':' :: serTCv v)) ++
                      serTCftail t) ++ [',', '\x7d'])) ++ rest) = _
                simp only [List.cons_append, List.append_assoc]
                unfold parseF
                simp only [List.cons_append, List.append_assoc] at hIH
                simp [skipWs_quote, hIH]
      · intro x t rest hb
        obtain ⟨r0, rest0, hre, hr0⟩ :
            ∃ r0 rest0, rest = r0 :: rest0 ∧ (r0 = ']' ∨ r0 = '\x7d') := by
          cases rest with
          | nil => simp at hb
          | cons a b =>
              rcases hb with h | h <;> simp at h <;> exact ⟨a, b, rfl, by simp [h]⟩
        subst hre
        unfold parseF
        rcases simpleVal_or_nonempty x with hs | hn
        · cases f with
          | zero => rfl
          | succ f2 =>
              rw [serTCv_simple x hs]
              have hrest2 : valRest (serTCtail t ++ (',' :: (r0 :: rest0))) := by
                cases t with
                | nil => unfold valRest; simp [serTCtail]
                | cons y t2 => unfold valRest; simp [serTCtail]
              have hv := parseF_simple f2 x hs _ hrest2
              rw [hv]
              have hitems : parseF (f2 + 1) .items
                  (skipWs (skipWs (serTCtail t ++ (',' :: (r0 :: rest0)))).tail) =
                  none := by
                cases t with
                | nil =>
                    simp only [serTCtail, List.nil_append]
                    rw [skipWs_comma, List.tail_cons]
                    have hskr : skipWs (r0 :: rest0) = r0 :: rest0 :=
                      skipWs_cons _ _ (by rcases hr0 with h | h <;> (subst h; decide))
                    rw [hskr]
                    rcases hr0 with h | h <;> subst h
                    · exact parseF_items_rb _ _
                    · exact parseF_items_rbrace _ _
                | cons y t2 =>
                    obtain ⟨cy, ty, hcy, hwy, _, _⟩ := serTCv_starts y
                    simp only [serTCtail, List.cons_append, List.append_assoc]
                    rw [skipWs_comma, List.tail_cons]
                    have hsky : skipWs (serTCv y ++ (serTCtail t2 ++
                        (',' :: (r0 :: rest0)))) = serTCv y ++ (serTCtail t2 ++
                        (',' :: (r0 :: rest0))) := by
                      rw [hcy]
                      simp only [List.cons_append]
                      exact skipWs_cons _ _ hwy
                    rw [hsky]
                    exact IHi y t2 (r0 :: rest0) (by rcases hr0 with h | h <;> simp [h])
              have hskc : skipWs (serTCtail t ++ (',' :: (r0 :: rest0))) =
                  serTCtail t ++ (',' :: (r0 :: rest0)) := by
                cases t with
                | nil => simp only [serTCtail, List.nil_append]; exact skipWs_comma _
                | cons y t2 =>
                    simp only [serTCtail, List.cons_append, List.append_assoc]
                    exact skipWs_comma _
              have hhdc : (serTCtail t ++ (',' :: (r0 :: rest0))).head? = some ',' := by
                cases t with
                | nil => simp [serTCtail]
                | cons y t2 => simp [serTCtail]
              rw [hskc] at hitems
              simp [hskc, hhdc, hitems]
        · have hv := IHv x (serTCtail t ++ (',' :: (r0 :: rest0))) hn
          simp only [List.append_assoc] at hv
          rw [hv]
      · intro k v t rest hb
        obtain ⟨r0, rest0, hre, hr0⟩ :
            ∃ r0 rest0, rest = r0 :: rest0 ∧ (r0 = ']' ∨ r0 = '\x7d') := by
          cases rest with
          | nil => simp at hb
          | cons a b =>
              rcases hb with h | h <;> simp at h <;> exact ⟨a, b, rfl, by simp [h]⟩
        subst hre
        show parseF (f + 1) .fields
            (('"' :: (escStr k ++ '"' :: ':' :: serTCv v)) ++
              (serTCftail t ++ (',' :: (r0 :: rest0)))) = none
        simp only [List.cons_append, List.append_assoc]
        unfold parseF
        rcases simpleVal_or_nonempty v with hs | hn
        · cases f with
          | zero => simp [parseStrBody_esc, skipWs_colon, parseF_zero]
          | succ f2 =>
              have hrest2 : valRest (serTCftail t ++ (',' :: (r0 :: rest0))) := by
                cases t with
                | nil => unfold valRest; simp [serTCftail]
                | cons p t2 => obtain ⟨k2, v2⟩ := p; unfold valRest; simp [serTCftail]
              have hv0 := parseF_simple f2 v hs _ hrest2
              rw [serTCv_simple v hs]
              have hskv : skipWs (serV v ++ (serTCftail t ++ (',' :: (r0 :: rest0)))) =
                  serV v ++ (serTCftail t ++ (',' :: (r0 :: rest0))) := by
                obtain ⟨cv, tv, hcv, hwv, _, _⟩ := serV_starts v
                rw [hcv]
                simp only [List.cons_append]
                exact skipWs_cons _ _ hwv
              have hfields : parseF (f2 + 1) .fields
                  (skipWs (skipWs (serTCftail t ++ (',' :: (r0 :: rest0)))).tail) =
                  none := by
                cases t with
                | nil =>
                    simp only [serTCftail, List.nil_append]
                    rw [skipWs_comma, List.tail_cons]
                    have hskr : skipWs (r0 :: rest0) = r0 :: rest0 :=
                      skipWs_cons _ _ (by rcases hr0 with h | h <;> (subst h; decide))
                    rw [hskr]
                    exact parseF_fields_not_quote _ r0 _
                      (by rcases hr0 with h | h <;> (subst h; decide))
                | cons p t2 =>
                    obtain ⟨k2, v2⟩ := p
                    simp only [serTCftail, List.cons_append, List.append_assoc]
                    rw [skipWs_comma, List.tail_cons, skipWs_quote]
                    have := IHf k2.data v2 t2 (r0 :: rest0)
                      (by rcases hr0 with h | h <;> simp [h])
                    simp only [List.cons_append, List.append_assoc] at this
                    exact this
              have hskc : skipWs (serTCftail t ++ (',' :: (r0 :: rest0))) =
                  serTCftail t ++ (',' :: (r0 :: rest0)) := by
                cases t with
                | nil => simp only [serTCftail, List.nil_append]; exact skipWs_comma _
                | cons p t2 =>
                    obtain ⟨k2, v2⟩ := p
                    simp only [serTCftail, List.cons_append, List.append_assoc]
                    exact skipWs_comma _
              have hhdc : (serTCftail t ++ (',' :: (r0 :: rest0))).head? = some ',' := by
                cases t with
                | nil => simp [serTCftail]
                | cons p t2 => obtain ⟨k2, v2⟩ := p; simp [serTCftail]
              rw [hskc] at hfields
              simp [parseStrBody_esc, skipWs_colon, hskv, hv0, hskc, hhdc, hfields]
        · have hv0 := IHv v (serTCftail t ++ (',' :: (r0 :: rest0))) hn
          simp only [List.append_assoc] at hv0
          have hskv2 : skipWs (serTCv v ++ (serTCftail t ++ (',' :: (r0 :: rest0)))) =
              serTCv v ++ (serTCftail t ++ (',' :: (r0 :: rest0))) := by
            obtain ⟨cv, tv, hcv, hwv, _, _⟩ := serTCv_starts v
            rw [hcv]
            simp only [List.cons_append]
            exact skipWs_cons _ _ hwv
          simp [parseStrBody_esc, skipWs_colon, hskv2, hv0]


/-! ### `JSON.parse` on serializer output -/

mutual

theorem jfuel_le : ∀ j : Json, jfuel j ≤ 2 * (serV j).length
  | .null => by simp [jfuel, serV]
  | .bool b => by cases b <;> simp [jfuel, serV]
  | .num n => by
      obtain ⟨c, t, hct, _⟩ := numChars_starts n
      simp [jfuel, serV, hct]
      omega
  | .str s => by
      simp [jfuel, serV]
      omega
  | .arr l => by
      have h := lfuel_le l
      cases l with
      | nil =>
          simp only [jfuel, serV, serItems, serTail, lfuel] at h ⊢
          simp
      | cons x t =>
          have hlen : (serTail (x :: t)).length =
              1 + (serV x).length + (serTail t).length := by
            simp [serTail]
            omega
          have hlen2 : (serItems (x :: t)).length =
              (serV x).length + (serTail t).length := by
            simp [serItems]
          simp only [jfuel, serV, List.length_cons, List.length_append,
            List.length_singleton] at h ⊢
          omega
  | .obj l => by
      have h := ffuel_le l
      cases l with
      | nil =>
          simp only [jfuel, serV, serFields, serFTail, ffuel] at h ⊢
          simp
      | cons p t =>
          obtain ⟨k, v⟩ := p
          have hlen : (serFTail ((k, v) :: t)).length =
              4 + (escStr k.data).length + (serV v).length + (serFTail t).length := by
            simp [serFTail]
            omega
          have hlen2 : (serFields ((k, v) :: t)).length =
              3 + (escStr k.data).length + (serV v).length + (serFTail t).length := by
            simp [serFields]
            omega
          simp only [jfuel, serV, List.length_cons, List.length_append,
            List.length_singleton] at h ⊢
          omega

theorem lfuel_le : ∀ l : List Json, lfuel l ≤ 1 + 2 * (serTail l).length
  | [] => by simp [lfuel, serTail]
  | x :: t => by
      have h1 := jfuel_le x
      have h2 := lfuel_le t
      simp only [lfuel, serTail, List.length_cons, List.length_append]
      omega

theorem ffuel_le : ∀ l : List (String × Json), ffuel l ≤ 1 + 2 * (serFTail l).length
  | [] => by simp [ffuel, serFTail]
  | (k, v) :: t => by
      have h1 := jfuel_le v
      have h2 := ffuel_le t
      simp only [ffuel, serFTail, List.length_cons, List.length_append]
      omega

end

/-- `JSON.parse` recovers every serialized value. -/
theorem jsonParseL_serV (j : Json) : jsonParseL (serV j) = some j := by
  unfold jsonParseL parseVal
  obtain ⟨c, t, hct, hws, _, _⟩ := serV_starts j
  have hsk : skipWs (serV j) = serV j := by
    rw [hct]; exact skipWs_cons _ _ hws
  have hf : jfuel j ≤ 2 * (serV j).length + 2 := by
    have := jfuel_le j
    omega
  have h := (parseF_ser (2 * (serV j).length + 2)).1 j [] hf (by unfold valRest; simp)
  simp only [List.append_nil] at h
  rw [hsk, h]
  simp [skipWs]

/-- `JSON.parse` rejects the trailing-comma serialization of every nonempty
object. -/
theorem jsonParseL_serTC_obj_none (fields : List (String × Json))
    (h : fields ≠ []) : jsonParseL (serTCv (.obj fields)) = none := by
  unfold jsonParseL parseVal
  obtain ⟨c, t, hct, hws, _, _⟩ := serTCv_starts (.obj fields)
  have hsk : skipWs (serTCv (.obj fields)) = serTCv (.obj fields) := by
    rw [hct]; exact skipWs_cons _ _ hws
  have hn : nonemptyContainer (.obj fields) := by
    cases fields with
    | nil => exact absurd rfl h
    | cons p t => exact trivial
  have hfail := (parseF_serTC_fail (2 * (serTCv (.obj fields)).length + 2)).1
    (.obj fields) [] hn
  simp only [List.append_nil] at hfail
  rw [hsk, hfail]

/-! ### The comma repair on serializer output -/

theorem collapseGen_nil (ws : Char → Bool) : collapseGen ws [] = [] := by
  unfold collapseGen
  rfl

theorem collapseGen_cons_ne (ws : Char → Bool) (c : Char) (X : List Char)
    (h : ¬ c = ',') : collapseGen ws (c :: X) = c :: collapseGen ws X := by
  conv_lhs => unfold collapseGen
  simp [h]

theorem collapseGen_comma_some (ws : Char → Bool) (X : List Char) (br : Char)
    (t2 : List Char) (h : spanBr ws X = some (br, t2)) :
    collapseGen ws (',' :: X) = br :: collapseGen ws t2 := by
  conv_lhs => unfold collapseGen
  split
  · split
    · rename_i br2 t3 heq
      rw [h] at heq
      injection heq with heq2
      injection heq2 with e1 e2
      rw [e1, e2]
    · rename_i heq
      rw [h] at heq
      cases heq
  · rename_i hf
    exact absurd rfl hf

theorem collapseGen_comma_none (ws : Char → Bool) (X : List Char)
    (h : spanBr ws X = none) :
    collapseGen ws (',' :: X) = ',' :: collapseGen ws X := by
  conv_lhs => unfold collapseGen
  split
  · split
    · rename_i br2 t3 heq
      rw [h] at heq
      cases heq
    · rfl
  · rename_i hf
    exact absurd rfl hf

theorem cfNoComma (ws : Char → Bool) : ∀ (pre l : List Char),
    (∀ a ∈ pre, ¬ a = ',') → collapseGen ws (pre ++ l) = pre ++ collapseGen ws l := by
  intro pre
  induction pre with
  | nil => intro l _; simp
  | cons c t ih =>
      intro l h
      simp only [List.cons_append]
      rw [collapseGen_cons_ne ws c _ (h c (by simp)), ih l (fun a ha => h a (by simp [ha]))]

theorem pred_ne {p : Char → Bool} (c d : Char) (h : p c = true) (hd : p d = false) :
    ¬ c = d := by
  intro he
  rw [he, hd] at h
  cases h

theorem rawWs_isJsWs (c : Char) (h : rawWs c = true) : isJsWs c = true := by
  simp only [rawWs, Bool.and_eq_true] at h
  exact h.1

theorem rawWs_ge (c : Char) (h : rawWs c = true) : ¬ c.toNat < 0x20 := by
  simp only [rawWs, Bool.and_eq_true] at h
  simpa using h.2

theorem escChar_raw (c : Char) (h1 : ¬ c = '"') (h2 : ¬ c = '\\') (h3 : ¬ c = '\n')
    (h4 : ¬ c = '\r') (h5 : ¬ c = '\t') (h6 : ¬ c.toNat < 0x20) :
    escChar c = [c] := by
  simp [escChar, h1, h2, h3, h4, h5, h6]

theorem escChar_rawWs (c : Char) (h : rawWs c = true) : escChar c = [c] := by
  have h6 := rawWs_ge c h
  have hjs := rawWs_isJsWs c h
  refine escChar_raw c ?_ ?_ ?_ ?_ ?_ h6
  · exact pred_ne c '"' hjs (by decide)
  · exact pred_ne c '\\' hjs (by decide)
  · intro he; rw [he] at h6; exact h6 (by decide)
  · intro he; rw [he] at h6; exact h6 (by decide)
  · intro he; rw [he] at h6; exact h6 (by decide)

theorem escStr_all_raw : ∀ w : List Char, (∀ c ∈ w, rawWs c = true) → escStr w = w := by
  intro w
  induction w with
  | nil => intro _; rfl
  | cons c t ih =>
      intro h
      have h1 := escChar_rawWs c (h c (by simp))
      have h2 := ih (fun a ha => h a (by simp [ha]))
      simp only [escStr, List.flatMap_cons] at h2 ⊢
      rw [h1, h2]
      simp

theorem hexDig_ne_comma : ∀ m, m < 16 → ¬ hexDig m = ',' := by decide

theorem escChar_no_comma (c : Char) (h : ¬ c = ',') :
    ∀ a ∈ escChar c, ¬ a = ',' := by
  intro a ha he
  subst he
  unfold escChar at ha
  by_cases h1 : c = '"'
  · rw [if_pos h1] at ha; simp at ha
  · rw [if_neg h1] at ha
    by_cases h2 : c = '\\'
    · rw [if_pos h2] at ha; simp at ha
    · rw [if_neg h2] at ha
      by_cases h3 : c = '\n'
      · rw [if_pos h3] at ha; simp at ha
      · rw [if_neg h3] at ha
        by_cases h4 : c = '\r'
        · rw [if_pos h4] at ha; simp at ha
        · rw [if_neg h4] at ha
          by_cases h5 : c = '\t'
          · rw [if_pos h5] at ha; simp at ha
          · rw [if_neg h5] at ha
            by_cases h6 : c.toNat < 0x20
            · rw [if_pos h6] at ha
              simp at ha
              rcases ha with h7 | h7
              · exact hexDig_ne_comma (c.toNat / 16) (by omega) h7.symm
              · exact hexDig_ne_comma (c.toNat % 16) (by omega) h7.symm
            · rw [if_neg h6] at ha
              simp at ha
              exact h ha.symm

theorem dropWhile_head_false (p : Char → Bool) : ∀ (l : List Char) (d : Char)
    (t : List Char), l.dropWhile p = d :: t → p d = false := by
  intro l
  induction l with
  | nil => intro d t h; simp [List.dropWhile] at h
  | cons c cs ih =>
      intro d t h
      by_cases hc : p c
      · rw [List.dropWhile_cons_of_pos hc] at h
        exact ih d t h
      · rw [List.dropWhile_cons_of_neg hc] at h
        injection h with h1 _
        subst h1
        exact Bool.eq_false_iff.mpr hc

theorem takeWhile_all (p : Char → Bool) : ∀ (l : List Char) (a : Char),
    a ∈ l.takeWhile p → p a = true := by
  intro l
  induction l with
  | nil => intro a h; simp [List.takeWhile] at h
  | cons c cs ih =>
      intro a h
      by_cases hc : p c
      · rw [List.takeWhile_cons_of_pos hc] at h
        rcases List.mem_cons.mp h with h1 | h1
        · subst h1; exact hc
        · exact ih a h1
      · rw [List.takeWhile_cons_of_neg hc] at h
        simp at h

theorem dropWhile_append_all (p : Char → Bool) : ∀ (pre l : List Char),
    (∀ a ∈ pre, p a = true) → (pre ++ l).dropWhile p = l.dropWhile p := by
  intro pre
  induction pre with
  | nil => intro l _; simp
  | cons c t ih =>
      intro l h
      simp only [List.cons_append]
      rw [List.dropWhile_cons_of_pos (h c (by simp)), ih l (fun a ha => h a (by simp [ha]))]

theorem escChar_head_block (d : Char) (hd : rawWs d = false) (hnb : ¬ d = ']')
    (hnb2 : ¬ d = '\x7d') :
    ∃ e es, escChar d = e :: es ∧ isJsWs e = false ∧ isClosingBracket e = false := by
  by_cases h1 : d = '"'
  · subst h1; exact ⟨'\\', ['"'], rfl, by decide, by decide⟩
  · by_cases h2 : d = '\\'
    · subst h2; exact ⟨'\\', ['\\'], rfl, by decide, by decide⟩
    · by_cases h3 : d = '\n'
      · subst h3; exact ⟨'\\', ['n'], rfl, by decide, by decide⟩
      · by_cases h4 : d = '\r'
        · subst h4; exact ⟨'\\', ['r'], rfl, by decide, by decide⟩
        · by_cases h5 : d = '\t'
          · subst h5; exact ⟨'\\', ['t'], rfl, by decide, by decide⟩
          · by_cases h6 : d.toNat < 0x20
            · exact ⟨'\\', ['u', '0', '0', hexDig (d.toNat / 16), hexDig (d.toNat % 16)],
                by simp [escChar, h1, h2, h3, h4, h5, h6], by decide, by decide⟩
            · refine ⟨d, [], escChar_raw d h1 h2 h3 h4 h5 h6, ?_, ?_⟩
              · have hh : (isJsWs d && !(decide (d.toNat < 0x20))) = false := hd
                rw [decide_eq_false h6] at hh
                simpa using hh
              · simp [isClosingBracket, hnb, hnb2]

theorem escStr_cons (c : Char) (s : List Char) :
    escStr (c :: s) = escChar c ++ escStr s := by
  simp [escStr]

theorem escStr_append (a b : List Char) : escStr (a ++ b) = escStr a ++ escStr b := by
  simp [escStr]

theorem spanBr_some_of (ws : Char → Bool) (t : List Char) (d : Char) (t3 : List Char)
    (h : t.dropWhile ws = d :: t3) (hbr : isClosingBracket d = true) :
    spanBr ws t = some (d, t3) := by
  unfold spanBr
  rw [h]
  simp [hbr]

theorem spanBr_none_of (ws : Char → Bool) (t : List Char) (d : Char) (t3 : List Char)
    (h : t.dropWhile ws = d :: t3) (hbr : isClosingBracket d = false) :
    spanBr ws t = none := by
  unfold spanBr
  rw [h]
  simp [hbr]

theorem spanBr_none_nil (ws : Char → Bool) (t : List Char) (h : t.dropWhile ws = []) :
    spanBr ws t = none := by
  unfold spanBr
  rw [h]

/-- The comma repair inside a serialized string literal acts exactly as
`collapseRaw` on the literal's raw characters: the lookahead skips only
whitespace that the serializer left raw, and stops at the closing quote. -/
theorem cfString : ∀ n : Nat, ∀ s rest : List Char, s.length ≤ n →
    collapseGen isJsWs (escStr s ++ '"' :: rest) =
      escStr (collapseRaw s) ++ '"' :: collapseGen isJsWs rest := by
  intro n
  induction n with
  | zero =>
      intro s rest hlen
      have hs : s = [] := List.length_eq_zero.mp (Nat.le_zero.mp hlen)
      subst hs
      show collapseGen isJsWs ([] ++ '"' :: rest) =
        escStr (collapseGen rawWs []) ++ '"' :: collapseGen isJsWs rest
      rw [List.nil_append, collapseGen_nil, collapseGen_cons_ne isJsWs '"' rest (by decide)]
      rfl
  | succ n ih =>
      intro s rest hlen
      cases s with
      | nil =>
          show collapseGen isJsWs ([] ++ '"' :: rest) =
            escStr (collapseGen rawWs []) ++ '"' :: collapseGen isJsWs rest
          rw [List.nil_append, collapseGen_nil,
            collapseGen_cons_ne isJsWs '"' rest (by decide)]
          rfl
      | cons c s2 =>
          have hlen2 : s2.length ≤ n := by
            simp only [List.length_cons] at hlen
            omega
          by_cases hc : c = ','
          · subst hc
            have hsplit : s2.takeWhile rawWs ++ s2.dropWhile rawWs = s2 :=
              List.takeWhile_append_dropWhile rawWs s2
            have hwraw : ∀ a ∈ s2.takeWhile rawWs, rawWs a = true :=
              fun a ha => takeWhile_all rawWs s2 a ha
            have hescw : escStr (s2.takeWhile rawWs) = s2.takeWhile rawWs :=
              escStr_all_raw _ hwraw
            have hwws : ∀ a ∈ s2.takeWhile rawWs, isJsWs a = true :=
              fun a ha => rawWs_isJsWs a (hwraw a ha)
            have hwnc : ∀ a ∈ s2.takeWhile rawWs, ¬ a = ',' :=
              fun a ha => pred_ne a ',' (hwws a ha) (by decide)
            rw [escStr_cons, show escChar ',' = [','] from rfl]
            simp only [List.cons_append, List.nil_append]
            cases hs3 : s2.dropWhile rawWs with
            | nil =>
                have hall : ∀ a ∈ s2, rawWs a = true := by
                  intro a ha
                  have : a ∈ s2.takeWhile rawWs := by
                    rw [← hsplit, hs3, List.append_nil] at ha
                    exact ha
                  exact takeWhile_all rawWs s2 a this
                have hes2 : escStr s2 = s2 := escStr_all_raw s2 hall
                have hdwA : (escStr s2 ++ '"' :: rest).dropWhile isJsWs = '"' :: rest := by
                  rw [hes2, dropWhile_append_all isJsWs s2 _
                    (fun a ha => rawWs_isJsWs a (hall a ha))]
                  exact List.dropWhile_cons_of_neg (by decide)
                have hspan : spanBr isJsWs (escStr s2 ++ '"' :: rest) = none :=
                  spanBr_none_of isJsWs _ '"' rest hdwA (by decide)
                rw [collapseGen_comma_none isJsWs _ hspan, hes2,
                  cfNoComma isJsWs s2 _
                    (fun a ha => pred_ne a ',' (rawWs_isJsWs a (hall a ha)) (by decide)),
                  collapseGen_cons_ne isJsWs '"' rest (by decide)]
                have hspan2 : spanBr rawWs s2 = none := spanBr_none_nil rawWs s2 hs3
                show _ = escStr (collapseGen rawWs (',' :: s2)) ++ '"' ::
                  collapseGen isJsWs rest
                rw [collapseGen_comma_none rawWs s2 hspan2]
                have hcg : collapseGen rawWs s2 = s2 := by
                  have := cfNoComma rawWs s2 []
                    (fun a ha => pred_ne a ',' (rawWs_isJsWs a (hall a ha)) (by decide))
                  rw [List.append_nil, collapseGen_nil, List.append_nil] at this
                  exact this
                rw [hcg, escStr_cons, show escChar ',' = [','] from rfl, hes2]
                simp
            | cons d s4 =>
                have hdraw : rawWs d = false := dropWhile_head_false rawWs s2 d s4 hs3
                have hes2 : escStr s2 = s2.takeWhile rawWs ++ escStr (d :: s4) := by
                  conv_lhs => rw [← hsplit, hs3]
                  rw [escStr_append, hescw]
                have hlen4 : (d :: s4).length ≤ n := by
                  have h1 : (s2.dropWhile rawWs).length ≤ s2.length :=
                    (List.dropWhile_sublist rawWs).length_le
                  rw [hs3] at h1
                  omega
                by_cases hbr : d = ']' ∨ d = '\x7d'
                · have hescd : escChar d = [d] := by
                    rcases hbr with h | h <;> (subst h; rfl)
                  have hlen5 : s4.length ≤ n := by
                    simp only [List.length_cons] at hlen4
                    omega
                  have hdwA : (escStr s2 ++ '"' :: rest).dropWhile isJsWs =
                      d :: (escStr s4 ++ '"' :: rest) := by
                    rw [hes2, List.append_assoc,
                      dropWhile_append_all isJsWs _ _ hwws,
                      escStr_cons, hescd]
                    simp only [List.cons_append, List.nil_append]
                    exact List.dropWhile_cons_of_neg
                      (by rcases hbr with h | h <;> (subst h; decide))
                  have hspan : spanBr isJsWs (escStr s2 ++ '"' :: rest) =
                      some (d, escStr s4 ++ '"' :: rest) :=
                    spanBr_some_of isJsWs _ d _ hdwA
                      (by rcases hbr with h | h <;> (subst h; decide))
                  rw [collapseGen_comma_some isJsWs _ d _ hspan, ih s4 rest hlen5]
                  have hspan2 : spanBr rawWs s2 = some (d, s4) :=
                    spanBr_some_of rawWs s2 d s4 hs3
                      (by rcases hbr with h | h <;> (subst h; decide))
                  show _ = escStr (collapseGen rawWs (',' :: s2)) ++ '"' ::
                    collapseGen isJsWs rest
                  rw [collapseGen_comma_some rawWs s2 d s4 hspan2, escStr_cons, hescd]
                  simp [collapseRaw]
                · push_neg at hbr
                  obtain ⟨e, es, hee, hews, hebr⟩ :=
                    escChar_head_block d hdraw hbr.1 hbr.2
                  have hdwA : (escStr s2 ++ '"' :: rest).dropWhile isJsWs =
                      e :: ((es ++ escStr s4) ++ '"' :: rest) := by
                    rw [hes2, List.append_assoc,
                      dropWhile_append_all isJsWs _ _ hwws,
                      escStr_cons, hee]
                    simp only [List.cons_append, List.append_assoc]
                    exact List.dropWhile_cons_of_neg (by simp [hews])
                  have hspan : spanBr isJsWs (escStr s2 ++ '"' :: rest) = none :=
                    spanBr_none_of isJsWs _ e _ hdwA hebr
                  rw [collapseGen_comma_none isJsWs _ hspan, hes2, List.append_assoc,
                    cfNoComma isJsWs _ _ hwnc, ih (d :: s4) rest hlen4]
                  have hspan2 : spanBr rawWs s2 = none :=
                    spanBr_none_of rawWs s2 d s4 hs3
                      (by simp [isClosingBracket, hbr.1, hbr.2])
                  show _ = escStr (collapseGen rawWs (',' :: s2)) ++ '"' ::
                    collapseGen isJsWs rest
                  rw [collapseGen_comma_none rawWs s2 hspan2]
                  have hcg : collapseGen rawWs s2 =
                      s2.takeWhile rawWs ++ collapseGen rawWs (d :: s4) := by
                    conv_lhs => rw [← hsplit, hs3]
                    exact cfNoComma rawWs _ _ hwnc
                  rw [hcg, escStr_cons, show escChar ',' = [','] from rfl,
                    escStr_append, hescw]
                  show ',' :: (s2.takeWhile rawWs ++
                      (escStr (collapseRaw (d :: s4)) ++ '"' :: collapseGen isJsWs rest)) = _
                  simp [collapseRaw]
          · rw [escStr_cons, List.append_assoc,
              cfNoComma isJsWs _ _ (escChar_no_comma c hc), ih s2 rest hlen2]
            show _ = escStr (collapseGen rawWs (c :: s2)) ++ '"' :: collapseGen isJsWs rest
            rw [collapseGen_cons_ne rawWs c s2 hc, escStr_cons]
            simp [collapseRaw]

theorem isJsWs_toNat (c : Char) (h : isJsWs c = true) :
    c.toNat = 32 ∨ c.toNat = 9 ∨ c.toNat = 10 ∨ c.toNat = 13 ∨ c.toNat = 0xb ∨
    c.toNat = 0xc ∨ c.toNat = 0xa0 ∨ c.toNat = 0x1680 ∨
    (0x2000 ≤ c.toNat ∧ c.toNat ≤ 0x200a) ∨ c.toNat = 0x2028 ∨ c.toNat = 0x2029 ∨
    c.toNat = 0x202f ∨ c.toNat = 0x205f ∨ c.toNat = 0x3000 ∨ c.toNat = 0xfeff := by
  simp only [isJsWs, Bool.or_eq_true, decide_eq_true_eq, Bool.and_eq_true] at h
  rcases h with (((((((((((((h|h)|h)|h)|h)|h)|h)|h)|h)|h)|h)|h)|h)|h)|h <;>
    first
      | (subst h; decide)
      | omega

theorem isDigit_toNat (c : Char) (h : isDigitC c = true) :
    48 ≤ c.toNat ∧ c.toNat ≤ 57 := by
  simp only [isDigitC, Bool.and_eq_true, decide_eq_true_eq] at h
  obtain ⟨h1, h2⟩ := h
  rw [Char.le_def] at h1 h2
  exact ⟨h1, h2⟩

theorem isDigit_not_jsws (c : Char) (h : isDigitC c = true) : isJsWs c = false := by
  cases hw : isJsWs c
  · rfl
  · exfalso
    obtain ⟨h1, h2⟩ := isDigit_toNat c h
    have := isJsWs_toNat c hw
    omega

theorem serTCv_startsJs (j : Json) :
    ∃ c t, serTCv j = c :: t ∧ isJsWs c = false ∧ c ≠ ']' ∧ c ≠ '\x7d' := by
  cases j with
  | null =>
      refine ⟨'n', _, rfl, ?_, ?_, ?_⟩ <;> decide
  | bool b =>
      cases b <;> (refine ⟨_, _, rfl, ?_, ?_, ?_⟩ <;> decide)
  | num n =>
      obtain ⟨c, t, hct, hc⟩ := numChars_starts n
      refine ⟨c, t, by simp [serTCv, hct], ?_, ?_, ?_⟩
      · rcases hc with h | h
        · subst h; decide
        · exact isDigit_not_jsws c h
      · rcases hc with h | h
        · subst h; decide
        · exact isDigit_ne_of_not c _ h (by decide)
      · rcases hc with h | h
        · subst h; decide
        · exact isDigit_ne_of_not c _ h (by decide)
  | str s =>
      refine ⟨'"', _, rfl, ?_, ?_, ?_⟩ <;> decide
  | arr l =>
      cases l <;> (refine ⟨'[', _, rfl, ?_, ?_, ?_⟩ <;> decide)
  | obj l =>
      cases l with
      | nil => refine ⟨'\x7b', _, rfl, ?_, ?_, ?_⟩ <;> decide
      | cons p t =>
          obtain ⟨k, v⟩ := p
          refine ⟨'\x7b', _, rfl, ?_, ?_, ?_⟩ <;> decide

theorem numChars_no_comma (i : Int) : ∀ a ∈ numChars i, ¬ a = ',' := by
  intro a ha
  unfold numChars at ha
  by_cases hneg : i < 0
  · rw [if_pos hneg] at ha
    rcases List.mem_cons.mp ha with h | h
    · subst h; decide
    · exact isDigit_ne_of_not a ',' (natDigits_digits _ a h) (by decide)
  · rw [if_neg hneg] at ha
    by_cases hz : i = 0
    · rw [if_pos hz] at ha
      simp at ha
      subst ha; decide
    · rw [if_neg hz] at ha
      exact isDigit_ne_of_not a ',' (natDigits_digits _ a ha) (by decide)

theorem spanBr_rb (X : List Char) : spanBr isJsWs (']' :: X) = some (']', X) :=
  spanBr_some_of isJsWs _ ']' X (List.dropWhile_cons_of_neg (by decide)) (by decide)

theorem spanBr_rbrace (X : List Char) : spanBr isJsWs ('\x7d' :: X) = some ('\x7d', X) :=
  spanBr_some_of isJsWs _ '\x7d' X (List.dropWhile_cons_of_neg (by decide)) (by decide)

theorem spanBr_serTCv (y : Json) (X : List Char) :
    spanBr isJsWs (serTCv y ++ X) = none := by
  obtain ⟨c0, t0, hct, hws, hb1, hb2⟩ := serTCv_startsJs y
  refine spanBr_none_of isJsWs _ c0 (t0 ++ X) ?_ ?_
  · rw [hct]
    simp only [List.cons_append]
    exact List.dropWhile_cons_of_neg (by simp [hws])
  · simp [isClosingBracket, hb1, hb2]

mutual

/-- The comma repair rewrites the trailing-comma serialization of a value into
the plain serialization of its `collapseJ` image, passing through to the
continuation. -/
theorem commaFix_serTCv : ∀ (j : Json) (rest : List Char),
    collapseGen isJsWs (serTCv j ++ rest) =
      serV (collapseJ j) ++ collapseGen isJsWs rest
  | .null, rest => by
      show collapseGen isJsWs (['n', 'u', 'l', 'l'] ++ rest) = ['n', 'u', 'l', 'l'] ++ _
      exact cfNoComma isJsWs _ rest (by decide)
  | .bool true, rest => by
      show collapseGen isJsWs (['t', 'r', 'u', 'e'] ++ rest) = ['t', 'r', 'u', 'e'] ++ _
      exact cfNoComma isJsWs _ rest (by decide)
  | .bool false, rest => by
      show collapseGen isJsWs (['f', 'a', 'l', 's', 'e'] ++ rest) =
        ['f', 'a', 'l', 's', 'e'] ++ _
      exact cfNoComma isJsWs _ rest (by decide)
  | .num n, rest => by
      show collapseGen isJsWs (numChars n ++ rest) = numChars n ++ _
      exact cfNoComma isJsWs _ rest (numChars_no_comma n)
  | .str s, rest => by
      show collapseGen isJsWs (('"' :: (escStr s.data ++ ['"'])) ++ rest) =
        ('"' :: (escStr (collapseRaw s.data) ++ ['"'])) ++ _
      simp only [List.cons_append, List.append_assoc, List.singleton_append,
        List.nil_append]
      rw [collapseGen_cons_ne isJsWs '"' _ (by decide),
        cfString s.data.length s.data rest (Nat.le_refl _)]
  | .arr [], rest => by
      show collapseGen isJsWs (['[', ']'] ++ rest) = ['[', ']'] ++ _
      exact cfNoComma isJsWs _ rest (by decide)
  | .arr (x :: t), rest => by
      show collapseGen isJsWs
          (('[' :: ((serTCv x ++ serTCtail t) ++ [',', ']'])) ++ rest) =
        ('[' :: ((serV (collapseJ x) ++ serTail (collapseL t)) ++ [']'])) ++ _
      simp only [List.cons_append, List.append_assoc, List.nil_append]
      rw [collapseGen_cons_ne isJsWs '[' _ (by decide),
        commaFix_serTCitems x t rest]
      simp
  | .obj [], rest => by
      show collapseGen isJsWs (['\x7b', '\x7d'] ++ rest) = ['\x7b', '\x7d'] ++ _
      exact cfNoComma isJsWs _ rest (by decide)
  | .obj ((k, v) :: t), rest => by
      show collapseGen isJsWs
          (('\x7b' :: ((('"' :: (escStr k.data ++ '"' :: ':' :: serTCv v)) ++
            serTCftail t) ++ [',', '\x7d'])) ++ rest) =
        ('\x7b' :: ((('"' :: (escStr (collapseRaw k.data) ++ '"' :: ':' ::
            serV (collapseJ v))) ++ serFTail (collapseF t)) ++ ['\x7d'])) ++ _
      simp only [List.cons_append, List.append_assoc, List.nil_append]
      rw [collapseGen_cons_ne isJsWs '\x7b' _ (by decide),
        commaFix_serTCfields k v t rest]
termination_by j rest => sizeOf j

theorem commaFix_serTCitems : ∀ (x : Json) (t : List Json) (rest : List Char),
    collapseGen isJsWs (serTCv x ++ (serTCtail t ++ (',' :: (']' :: rest)))) =
      (serV (collapseJ x) ++ serTail (collapseL t)) ++ (']' :: collapseGen isJsWs rest)
  | x, [], rest => by
      rw [commaFix_serTCv x _]
      simp only [serTCtail, List.nil_append]
      rw [collapseGen_comma_some isJsWs _ ']' rest (spanBr_rb rest)]
      simp [collapseL, serTail]
  | x, y :: t2, rest => by
      rw [commaFix_serTCv x _]
      simp only [serTCtail, List.cons_append, List.append_assoc]
      rw [collapseGen_comma_none isJsWs _ (spanBr_serTCv y _),
        commaFix_serTCitems y t2 rest]
      simp [collapseL, serTail]
termination_by x t rest => sizeOf x + sizeOf t

theorem commaFix_serTCfields : ∀ (k : String) (v : Json)
    (t : List (String × Json)) (rest : List Char),
    collapseGen isJsWs ('"' :: (escStr k.data ++ '"' :: ':' ::
        (serTCv v ++ (serTCftail t ++ (',' :: ('\x7d' :: rest)))))) =
      '"' :: (escStr (collapseRaw k.data) ++ '"' :: ':' ::
        (serV (collapseJ v) ++ (serFTail (collapseF t) ++
          ('\x7d' :: collapseGen isJsWs rest))))
  | k, v, [], rest => by
      simp only [serTCftail, List.nil_append]
      rw [collapseGen_cons_ne isJsWs '"' _ (by decide),
        cfString k.data.length k.data _ (Nat.le_refl _),
        collapseGen_cons_ne isJsWs ':' _ (by decide),
        commaFix_serTCv v _,
        collapseGen_comma_some isJsWs _ '\x7d' rest (spanBr_rbrace rest)]
      simp [collapseF, serFTail]
  | k, v, (k2, v2) :: t2, rest => by
      simp only [serTCftail, List.cons_append, List.append_assoc]
      rw [collapseGen_cons_ne isJsWs '"' _ (by decide),
        cfString k.data.length k.data _ (Nat.le_refl _),
        collapseGen_cons_ne isJsWs ':' _ (by decide),
        commaFix_serTCv v _]
      have hsp : spanBr isJsWs ('"' :: (escStr k2.data ++ '"' :: ':' ::
          (serTCv v2 ++ (serTCftail t2 ++ (',' :: ('\x7d' :: rest)))))) = none :=
        spanBr_none_of isJsWs _ '"'
          (escStr k2.data ++ '"' :: ':' ::
            (serTCv v2 ++ (serTCftail t2 ++ (',' :: ('\x7d' :: rest)))))
          (List.dropWhile_cons_of_neg (by decide)) (by decide)
      rw [collapseGen_comma_none isJsWs _ hsp,
        commaFix_serTCfields k2 v2 t2 rest]
      simp [collapseF, serFTail]
termination_by k v t rest => sizeOf v + sizeOf t

end

/-! ### The repair cascade on fenced trailing-comma payloads -/

theorem commaFixL_serTC (j : Json) : commaFixL (serTCv j) = serV (collapseJ j) := by
  unfold commaFixL
  have h := commaFix_serTCv j []
  rw [List.append_nil, collapseGen_nil, List.append_nil] at h
  exact h

theorem stripFenceL_wrap (mid : List Char) :
    stripFenceL ('\x60' :: '\x60' :: '\x60' :: 'j' :: 's' :: 'o' :: 'n' :: '\n' ::
        (('\x7b' :: mid) ++ ['\x7d', '\n', '\x60', '\x60', '\x60'])) =
      ('\x7b' :: mid) ++ ['\x7d'] := by
  unfold stripFenceL
  simp [startsWithCI, toLowerC, List.dropWhile, List.reverse_append,
    (by decide : isJsWs '\n' = true), (by decide : isJsWs '\x7b' = false),
    (by decide : isJsWs '\x7d' = false)]

theorem serTCv_obj_split (fields : List (String × Json)) :
    ∃ mid, serTCv (.obj fields) = ('\x7b' :: mid) ++ ['\x7d'] := by
  cases fields with
  | nil => exact ⟨[], rfl⟩
  | cons p t =>
      obtain ⟨k, v⟩ := p
      refine ⟨(('"' :: (escStr k.data ++ '"' :: ':' :: serTCv v)) ++ serTCftail t) ++
        [','], ?_⟩
      show serTCv (.obj ((k, v) :: t)) = _
      simp [serTCv]

theorem wrapFence_data (X : List Char) :
    (wrapFence (String.mk X)).data =
      '\x60' :: '\x60' :: '\x60' :: 'j' :: 's' :: 'o' :: 'n' :: '\n' ::
        (X ++ ['\n', '\x60', '\x60', '\x60']) := by
  show (("```json\n" ++ String.mk X) ++ "\n```").data = _
  rw [String.data_append, String.data_append]
  rfl

theorem stripFence_wrap_serTC (fields : List (String × Json)) :
    stripFenceL (wrapFence (String.mk (serTCv (.obj fields)))).data =
      serTCv (.obj fields) := by
  obtain ⟨mid, hmid⟩ := serTCv_obj_split fields
  rw [wrapFence_data, hmid]
  have : (('\x7b' :: mid) ++ ['\x7d']) ++ ['\n', '\x60', '\x60', '\x60'] =
      ('\x7b' :: mid) ++ ['\x7d', '\n', '\x60', '\x60', '\x60'] := by simp
  rw [this, stripFenceL_wrap]

theorem firstIdx_brace (mid : List Char) :
    firstIdx (('\x7b' :: mid) ++ ['\x7d']) '\x7b' = some 0 := by
  simp [firstIdx, List.findIdx?_cons]

theorem lastIdx_brace (mid : List Char) :
    lastIdx (('\x7b' :: mid) ++ ['\x7d']) '\x7d' = some (mid.length + 1) := by
  unfold lastIdx
  rw [List.reverse_append]
  simp [List.findIdx?_cons]

theorem sliceL_whole (mid : List Char) :
    sliceL (('\x7b' :: mid) ++ ['\x7d']) 0 (mid.length + 1 + 1) =
      ('\x7b' :: mid) ++ ['\x7d'] := by
  unfold sliceL
  rw [List.drop_zero, Nat.sub_zero]
  have : (('\x7b' :: mid) ++ ['\x7d']).length = mid.length + 1 + 1 := by simp
  rw [← this, List.take_length]

theorem cleanJSONtiers_serTC (raw : String) (fields : List (String × Json)) :
    cleanJSONtiers raw (serTCv (.obj fields)) = .ok (.obj (collapseF fields)) := by
  unfold cleanJSONtiers
  cases fields with
  | nil =>
      have h0 : serTCv (.obj []) = ['\x7b', '\x7d'] := rfl
      have h1 : jsonParseL ['\x7b', '\x7d'] = some (.obj []) := by decide
      rw [h0, h1]
      show Except.ok (Json.obj []) = _
      simp [collapseF]
  | cons p t =>
      have h1 : jsonParseL (serTCv (.obj (p :: t))) = none :=
        jsonParseL_serTC_obj_none (p :: t) (by simp)
      have h2 : jsonParseL (commaFixL (serTCv (.obj (p :: t)))) =
          some (.obj (collapseF (p :: t))) := by
        rw [commaFixL_serTC]
        have := jsonParseL_serV (collapseJ (.obj (p :: t)))
        simpa [collapseJ] using this
      rw [h1, h2]

/-- C5: for every JSON object, serialized with trailing commas inserted before
the closing bracket of each nonempty array and object and wrapped in a
markdown code fence, `cleanJSON` succeeds and returns exactly the value
obtained by parsing the fence-stripped, comma-fixed text directly. -/
theorem claim_C5_repair_cascade (fields : List (String × Json)) :
    ∃ v : Json,
      jsonParse (commaFix (stripFence
        (wrapFence (String.mk (serTCv (.obj fields)))))) = some v ∧
      cleanJSON (wrapFence (String.mk (serTCv (.obj fields)))) = .ok v := by
  refine ⟨.obj (collapseF fields), ?_, ?_⟩
  · show jsonParseL (commaFixL (stripFenceL
      (wrapFence (String.mk (serTCv (.obj fields)))).data)) = _
    rw [stripFence_wrap_serTC, commaFixL_serTC]
    have := jsonParseL_serV (collapseJ (.obj fields))
    simpa [collapseJ] using this
  · unfold cleanJSON
    rw [stripFence_wrap_serTC]
    obtain ⟨mid, hmid⟩ := serTCv_obj_split fields
    rw [hmid, firstIdx_brace, lastIdx_brace]
    show cleanJSONtiers _ (sliceL (('\x7b' :: mid) ++ ['\x7d']) 0 (mid.length + 1 + 1)) = _
    rw [sliceL_whole, ← hmid, cleanJSONtiers_serTC]

end ClearSignals
